import Mathlib

/-!
# Verification of the stable-marriage engine (`src/App.jsx`)

Shallow embedding of the `StableMarriageAlgorithm` and `SatisfactionAnalyzer`
classes.  Participant identifiers on both sides are the integers `0 .. n-1`
(the instances built by `generateRandomPreferences`, and the valid instances of
the specification).  JavaScript `Map`s are embedded as insertion-ordered
association lists, JavaScript `Set`s as insertion-ordered duplicate-free lists,
and JavaScript arrays of numbers as Lean lists; `Array.prototype.indexOf` is
embedded with its `-1`-on-absence behaviour over `Int`.
-/

namespace StableMarriage

/-- JS `array.indexOf(x)` on an array of numbers: the first index holding `x`,
or `-1` when `x` does not occur. -/
def jsIndexOf (l : List Nat) (x : Nat) : Int :=
  if x ∈ l then (l.indexOf x : Int) else -1

/-- JS `map.set(k, v)` on a `Map` viewed as an insertion-ordered association
list: an existing key keeps its position and gets the new value, a new key is
appended at the end. -/
def mapSet (m : List (Nat × Nat)) (k v : Nat) : List (Nat × Nat) :=
  if (m.lookup k).isSome then m.map (fun p => if p.1 = k then (k, v) else p)
  else m ++ [(k, v)]

/-- JS `set.add(x)` on a `Set` viewed as an insertion-ordered list without
duplicates: append `x` if absent, otherwise leave the set unchanged. -/
def setAdd (s : List Nat) (x : Nat) : List Nat :=
  if x ∈ s then s else s ++ [x]

/-- A problem instance as handed to the `StableMarriageAlgorithm` constructor:
`students = establishments = [0, …, n-1]` (the identifier universes of the data
model), plus the two preference tables.  The constructor performs no
validation: it merely stores these fields (and sets `proposalCounts` to zeros,
which we thread explicitly where a claim needs it). -/
structure SMInstance where
  n : Nat
  studentPrefs : List (List Nat)
  establishmentPrefs : List (List Nat)
deriving DecidableEq, Repr

/-- A preference table is valid when it has one list per participant and each
list is a strict total order over the `n` opposite-side participants: length
`n`, no duplicates, every entry in `[0, n)`. -/
def ValidPrefs (n : Nat) (prefs : List (List Nat)) : Prop :=
  prefs.length = n ∧
    ∀ p < n, (prefs.getD p []).length = n ∧ (prefs.getD p []).Nodup ∧
      ∀ x ∈ prefs.getD p [], x < n

instance (n : Nat) (prefs : List (List Nat)) : Decidable (ValidPrefs n prefs) := by
  unfold ValidPrefs; infer_instance

/-- A valid instance: both preference tables are valid for the common size. -/
def ValidInstance (inst : SMInstance) : Prop :=
  ValidPrefs inst.n inst.studentPrefs ∧ ValidPrefs inst.n inst.establishmentPrefs

instance (inst : SMInstance) : Decidable (ValidInstance inst) := by
  unfold ValidInstance; infer_instance

/-- The array cells a solve run can read: one preference row per proposer,
each row long enough for every cursor position, and every named receiver
possessing a preference row.  When this holds, no array access of the JS loop
is out of range and the embedding below is exact, whether or not the lists
are valid preference orders (duplicate or omitted participants are allowed).
When it fails, the JS code throws a `TypeError` at the first out-of-range
access (e.g. `establishmentPrefs[r]` missing when receiver `r` gets a second
proposal), a crash the `getD`-based embedding does not model — so statements
about malformed instances are made only under this condition.  Valid
preference tables are in range a fortiori. -/
def InRangePrefs (n : Nat) (pPrefs rPrefs : List (List Nat)) : Prop :=
  pPrefs.length = n ∧ ∀ p < n, n ≤ (pPrefs.getD p []).length ∧
    ∀ x ∈ pPrefs.getD p [], x < rPrefs.length

instance (n : Nat) (pPrefs rPrefs : List (List Nat)) :
    Decidable (InRangePrefs n pPrefs rPrefs) := by
  unfold InRangePrefs; infer_instance

/-!
## The deferred-acceptance loop

`solveStudentsPropose` and `solveEstablishmentsPropose` are the same loop with
the two sides swapped; we embed the loop once, parameterised by the proposer
preferences `pPrefs` and the receiver preferences `rPrefs`.  The loop state
mirrors the local variables of the JS methods: the `engaged` map
(receiver ↦ proposer, in insertion order), the `free` set of proposers (in
insertion order; the loop always picks `Array.from(free)[0]`, its first
element), the `proposals` cursor map, and the instance field
`this.proposalCounts` (only `solveStudentsPropose` increments and returns it;
the establishments-propose method leaves that field alone and instead returns
its cursor map, so its wrapper below discards `counts`). -/
structure GSState where
  engaged : List (Nat × Nat)
  free : List Nat
  cur : Nat → Nat
  counts : Nat → Nat

/-- One iteration of the `while (free.size > 0)` body.  The JS array reads
`this.studentPrefs[p][i]` and `this.establishmentPrefs[r]` are embedded as
`getD` with defaults; on an instance where such a read is out of range the
JS code throws a `TypeError` instead of yielding a default, so the embedding
is exact precisely when every read is in range — always the case under
`ValidPrefs`, and more generally under `InRangePrefs`, which is why theorems
about malformed instances carry that hypothesis. -/
def gsStep (n : Nat) (pPrefs rPrefs : List (List Nat)) (st : GSState) : GSState :=
  match st.free with
  | [] => st
  | p :: _ =>
    let i := st.cur p
    if n ≤ i then
      { st with free := st.free.erase p }
    else
      let r := (pPrefs.getD p []).getD i 0
      let counts' := Function.update st.counts p (st.counts p + 1)
      let cur' := Function.update st.cur p (i + 1)
      match st.engaged.lookup r with
      | none =>
        { engaged := mapSet st.engaged r p, free := st.free.erase p,
          cur := cur', counts := counts' }
      | some q =>
        if jsIndexOf (rPrefs.getD r []) p < jsIndexOf (rPrefs.getD r []) q then
          { engaged := mapSet st.engaged r p, free := setAdd (st.free.erase p) q,
            cur := cur', counts := counts' }
        else
          { st with cur := cur', counts := counts' }

/-- The loop, with explicit fuel (`none` = fuel exhausted before the free set
emptied; we prove below that `n² + n` fuel always suffices). -/
def gsRun (n : Nat) (pPrefs rPrefs : List (List Nat)) : Nat → GSState → Option GSState
  | 0, st => if st.free = [] then some st else none
  | f + 1, st =>
    if st.free = [] then some st
    else gsRun n pPrefs rPrefs f (gsStep n pPrefs rPrefs st)

/-- The state at loop entry: nobody engaged, every proposer `0 … n-1` free (in
that order), every cursor `0`; `counts0` is the value of the
`this.proposalCounts` field at call time. -/
def gsInit (n : Nat) (counts0 : Nat → Nat) : GSState :=
  { engaged := [], free := List.range n, cur := fun _ => 0, counts := counts0 }

/-- What a solve method returns: the `matching` map and the per-proposer
proposal counts (an array for students-propose, the cursor map for
establishments-propose; both embedded as functions on identifiers). -/
structure SolveResult where
  matching : List (Nat × Nat)
  counts : Nat → Nat

/-- `solveStudentsPropose`, with the `this.proposalCounts` field explicit:
`counts0` is its value when the method is called (all zeros right after
construction), and the returned `counts` is both the returned copy and the
field's value after the call.  The returned matching inverts `engaged`
(establishment ↦ student) into student ↦ establishment, in insertion order. -/
def solveStudentsProposeFrom (inst : SMInstance) (counts0 : Nat → Nat) :
    Option SolveResult :=
  (gsRun inst.n inst.studentPrefs inst.establishmentPrefs
      (inst.n * inst.n + inst.n) (gsInit inst.n counts0)).map
    (fun st => ⟨st.engaged.foldl (fun m q => mapSet m q.2 q.1) [], st.counts⟩)

/-- `solveStudentsPropose` on a freshly constructed instance
(`proposalCounts` all zero). -/
def solveStudentsPropose (inst : SMInstance) : Option SolveResult :=
  solveStudentsProposeFrom inst (fun _ => 0)

/-- `solveEstablishmentsPropose`: proposers are the establishments, receivers
the students; the method returns the `engaged` map itself (student ↦
establishment, keyed by the receiving student) and its `proposals` cursor map
as the proposal counts.  It never touches `this.proposalCounts`. -/
def solveEstablishmentsPropose (inst : SMInstance) : Option SolveResult :=
  (gsRun inst.n inst.establishmentPrefs inst.studentPrefs
      (inst.n * inst.n + inst.n) (gsInit inst.n (fun _ => 0))).map
    (fun st => ⟨st.engaged, st.cur⟩)

/-!
## The stability verifier
-/

/-- Result of `verifyStability`. -/
structure StabilityResult where
  stable : Bool
  blockingPairs : List (Nat × Nat)
deriving DecidableEq, Repr

/-- The blocking pairs contributed by student `s` (the body of the outer `for`
loop of `verifyStability`).  `matching.get(s)` may be `undefined` (`none`), in
which case `indexOf(undefined) = -1` and the inner loop runs zero times.  The
reverse lookup scans the matching's entries in order and takes the first whose
value is the preferred establishment, as the JS
`Array.from(matching.entries()).find(...)` does. -/
def blockingFor (sPrefs ePrefs : List (List Nat)) (m : List (Nat × Nat))
    (s : Nat) : List (Nat × Nat) :=
  let currentRankS : Int :=
    match m.lookup s with
    | none => -1
    | some e => jsIndexOf (sPrefs.getD s []) e
  (List.range currentRankS.toNat).foldl
    (fun acc j =>
      let preferredE := (sPrefs.getD s []).getD j 0
      match m.find? (fun q => q.2 = preferredE) with
      | none => acc
      | some q =>
        if jsIndexOf (ePrefs.getD preferredE []) s <
            jsIndexOf (ePrefs.getD preferredE []) q.1 then
          acc ++ [(s, preferredE)]
        else acc)
    []

/-- `verifyStability(matching)`: collect the blocking pairs over all students
`0 … n-1`; the matching is stable iff the collection is empty. -/
def verifyStability (n : Nat) (sPrefs ePrefs : List (List Nat))
    (m : List (Nat × Nat)) : StabilityResult :=
  let bps := (List.range n).foldl (fun acc s => acc ++ blockingFor sPrefs ePrefs m s) []
  ⟨bps.length = 0, bps⟩

/-!
## The satisfaction analyzer

The analyzer's arithmetic is embedded over `ℚ`.  JavaScript produces the
non-finite values `NaN`/`±Infinity` exactly when a division by zero occurs
(`total / n` with `n = 0`, or `rank / (n - 1)` with `n = 1`); those cases are
embedded as `none`.  All remaining computations take exact values.
-/

/-- The partner used by the analyzer loops: `matching.get(i)` for a student,
and for an establishment the first matching entry whose value is `i`. -/
def partnerOf (m : List (Nat × Nat)) (isStudent : Bool) (i : Nat) : Option Nat :=
  if isStudent then m.lookup i
  else (m.find? (fun q => q.2 = i)).map (fun q => q.1)

/-- `prefs[i].indexOf(partner)`, with `indexOf(undefined) = -1`. -/
def rankOf (prefs : List (List Nat)) (i : Nat) (partner : Option Nat) : Int :=
  match partner with
  | none => -1
  | some x => jsIndexOf (prefs.getD i []) x

/-- `averageRank`: total rank over the side divided by `n`
(`0/0 = NaN` when `n = 0`, embedded as `none`). -/
def averageRank (n : Nat) (prefs : List (List Nat)) (m : List (Nat × Nat))
    (isStudent : Bool) : Option ℚ :=
  let total : Int :=
    (List.range n).foldl (fun acc i => acc + rankOf prefs i (partnerOf m isStudent i)) 0
  if n = 0 then none else some ((total : ℚ) / (n : ℚ))

/-- `topKPercentage`: percentage of the side whose rank is `< k`. -/
def topKPercentage (n : Nat) (prefs : List (List Nat)) (m : List (Nat × Nat))
    (k : Nat) (isStudent : Bool) : Option ℚ :=
  let count : Nat :=
    (List.range n).foldl
      (fun acc i => if rankOf prefs i (partnerOf m isStudent i) < (k : Int) then acc + 1 else acc) 0
  if n = 0 then none else some (((count : ℚ) / (n : ℚ)) * 100)

/-- `satisfactionScore`: mean of `100 * (1 - rank/(n-1))` over the side.  For
`n = 1` the code divides by `n - 1 = 0`, so every per-participant score is
`NaN` (`0/0`) or `±Infinity` and the mean is non-finite: embedded as `none`
(likewise for `n = 0`, where the final `0/0` is `NaN`). -/
def satisfactionScore (n : Nat) (prefs : List (List Nat)) (m : List (Nat × Nat))
    (isStudent : Bool) : Option ℚ :=
  if n ≤ 1 then none
  else
    let total : ℚ :=
      (List.range n).foldl
        (fun acc i =>
          acc + 100 * (1 - (rankOf prefs i (partnerOf m isStudent i) : ℚ) / ((n : ℚ) - 1))) 0
    some (total / (n : ℚ))

/-- `egalitarianCost`: sum over the students of their rank of their partner
plus that partner's rank of them (`matching.get(s)` may be `undefined`, and
`establishmentPrefs[undefined]` then contributes `indexOf` on the default empty
list, i.e. `-1`). -/
def egalitarianCost (n : Nat) (sPrefs ePrefs : List (List Nat))
    (m : List (Nat × Nat)) : Int :=
  (List.range n).foldl
    (fun acc s =>
      match m.lookup s with
      | none => acc + (-1) + (-1)
      | some e =>
        acc + jsIndexOf (sPrefs.getD s []) e + jsIndexOf (ePrefs.getD e []) s)
    0

/-- `sexEquality`: absolute difference of the two sides' satisfaction scores
(`NaN` as soon as either side's score is non-finite). -/
def sexEquality (n : Nat) (sPrefs ePrefs : List (List Nat))
    (m : List (Nat × Nat)) : Option ℚ :=
  match satisfactionScore n sPrefs m true, satisfactionScore n ePrefs m false with
  | some a, some b => some |a - b|
  | _, _ => none

/-- The per-side block of `fullAnalysis`. -/
structure SideAnalysis where
  avgRank : Option ℚ
  top1 : Option ℚ
  top3 : Option ℚ
  satisfaction : Option ℚ
deriving DecidableEq, Repr

/-- The report returned by `fullAnalysis`. -/
structure FullAnalysis where
  students : SideAnalysis
  establishments : SideAnalysis
  egalitarianCost : Int
  sexEquality : Option ℚ
deriving DecidableEq, Repr

/-- `SatisfactionAnalyzer.fullAnalysis` (the analyzer's `n` is
`studentPrefs.length`). -/
def fullAnalysis (sPrefs ePrefs : List (List Nat)) (m : List (Nat × Nat)) :
    FullAnalysis :=
  let n := sPrefs.length
  { students :=
      { avgRank := averageRank n sPrefs m true
        top1 := topKPercentage n sPrefs m 1 true
        top3 := topKPercentage n sPrefs m 3 true
        satisfaction := satisfactionScore n sPrefs m true }
    establishments :=
      { avgRank := averageRank n ePrefs m false
        top1 := topKPercentage n ePrefs m 1 false
        top3 := topKPercentage n ePrefs m 3 false
        satisfaction := satisfactionScore n ePrefs m false }
    egalitarianCost := egalitarianCost n sPrefs ePrefs m
    sexEquality := sexEquality n sPrefs ePrefs m }

/-!
## Abstract matchings and stability

The specification's data model (§3) defines a matching as a bijection between
the two sides and a blocking pair as a pair, not matched to each other, each of
whom strictly prefers the other to their assigned partner.  Claim C3
quantifies over all stable matchings of an instance, so we state that notion
abstractly, oriented from the proposer side: `M` sends each proposer to its
receiver. -/

/-- `M` restricted to `[0, n)` is a bijection onto `[0, n)`. -/
def IsMatchingFn (n : Nat) (M : Nat → Nat) : Prop :=
  (∀ p < n, M p < n) ∧ ∀ p₁ < n, ∀ p₂ < n, M p₁ = M p₂ → p₁ = p₂

/-- `M` is a stable matching for proposer preferences `pPrefs` and receiver
preferences `rPrefs`: it is a bijection and no pair (proposer `p`, receiver
`r`) exists in which `p` strictly prefers `r` to `M p` while `r` strictly
prefers `p` to its own partner. -/
def IsStableFn (n : Nat) (pPrefs rPrefs : List (List Nat)) (M : Nat → Nat) : Prop :=
  IsMatchingFn n M ∧
    ∀ p < n, ∀ r < n,
      (pPrefs.getD p []).indexOf r < (pPrefs.getD p []).indexOf (M p) →
        ∀ p' < n, M p' = r →
          (rPrefs.getD r []).indexOf p' ≤ (rPrefs.getD r []).indexOf p

instance (n : Nat) (M : Nat → Nat) : Decidable (IsMatchingFn n M) := by
  unfold IsMatchingFn; infer_instance

instance (n : Nat) (pPrefs rPrefs : List (List Nat)) (M : Nat → Nat) :
    Decidable (IsStableFn n pPrefs rPrefs M) := by
  unfold IsStableFn; infer_instance

/-!
## Loop invariants and termination measure
-/

/-- The preference-independent well-formedness of a loop state: the free list
is a duplicate-free list of proposers, the engaged map has duplicate-free keys
and duplicate-free proposer values below `n`, and no engaged proposer is free.
This much holds from any start, valid preferences or not. -/
structure GSCore (n : Nat) (st : GSState) : Prop where
  free_nodup : st.free.Nodup
  free_lt : ∀ p ∈ st.free, p < n
  keys_nodup : (st.engaged.map Prod.fst).Nodup
  vals_nodup : (st.engaged.map Prod.snd).Nodup
  vals_lt : ∀ e ∈ st.engaged, e.2 < n
  vals_free : ∀ e ∈ st.engaged, e.2 ∉ st.free

/-- The full loop invariant for a valid instance.  Beyond `GSCore`:
receivers are in range; every non-free proposer is engaged; cursors never
exceed `n`; an engaged proposer holds the receiver of its latest proposal;
and every receiver already proposed to is engaged, to a proposer it ranks at
least as high as the one who proposed. -/
structure GSInv (n : Nat) (pPrefs rPrefs : List (List Nat)) (st : GSState)
    extends GSCore n st : Prop where
  keys_lt : ∀ e ∈ st.engaged, e.1 < n
  engaged_of_not_free : ∀ p < n, p ∉ st.free → ∃ e ∈ st.engaged, e.2 = p
  cur_le : ∀ p, st.cur p ≤ n
  engaged_latest : ∀ e ∈ st.engaged,
    1 ≤ st.cur e.2 ∧ (pPrefs.getD e.2 []).getD (st.cur e.2 - 1) 0 = e.1
  proposed : ∀ p < n, ∀ i < st.cur p, ∃ q,
    ((pPrefs.getD p []).getD i 0, q) ∈ st.engaged ∧
      (rPrefs.getD ((pPrefs.getD p []).getD i 0) []).indexOf q ≤
        (rPrefs.getD ((pPrefs.getD p []).getD i 0) []).indexOf p

/-- For a fixed stable matching `M`: any receiver a proposer has proposed to
and is not currently engaged to is not that proposer's partner in `M`.  This
is the classical "no proposer is ever rejected by a stable partner"
invariant. -/
def OptInv (pPrefs : List (List Nat)) (n : Nat) (M : Nat → Nat) (st : GSState) : Prop :=
  ∀ p < n, ∀ i < st.cur p,
    ((pPrefs.getD p []).getD i 0, p) ∉ st.engaged → M p ≠ (pPrefs.getD p []).getD i 0

/-- Termination measure: the number of free proposers plus the remaining
proposal capacity of the proposers `0 … n-1`.  Every loop iteration strictly
decreases it. -/
def gsMeasure (n : Nat) (st : GSState) : Nat :=
  st.free.length + ∑ p ∈ Finset.range n, (n - st.cur p)

/-!
## Basic lemmas about the JS-container embeddings
-/

theorem jsIndexOf_of_mem {l : List Nat} {x : Nat} (h : x ∈ l) :
    jsIndexOf l x = (l.indexOf x : Int) := by
  simp [jsIndexOf, h]

theorem jsIndexOf_lt_iff {l : List Nat} {x y : Nat} (hx : x ∈ l) (hy : y ∈ l) :
    jsIndexOf l x < jsIndexOf l y ↔ l.indexOf x < l.indexOf y := by
  rw [jsIndexOf_of_mem hx, jsIndexOf_of_mem hy]
  exact_mod_cast Iff.rfl

theorem validPrefs_getD_length {n : Nat} {prefs : List (List Nat)} {p : Nat}
    (h : ValidPrefs n prefs) (hp : p < n) : (prefs.getD p []).length = n :=
  (h.2 p hp).1

theorem validPrefs_getD_nodup {n : Nat} {prefs : List (List Nat)} {p : Nat}
    (h : ValidPrefs n prefs) (hp : p < n) : (prefs.getD p []).Nodup :=
  (h.2 p hp).2.1

theorem validPrefs_getD_lt {n : Nat} {prefs : List (List Nat)} {p x : Nat}
    (h : ValidPrefs n prefs) (hp : p < n) (hx : x ∈ prefs.getD p []) : x < n :=
  (h.2 p hp).2.2 x hx

/-- A valid preference list is complete: it mentions every opposite-side
participant. -/
theorem validPrefs_mem {n : Nat} {prefs : List (List Nat)} {p x : Nat}
    (h : ValidPrefs n prefs) (hp : p < n) (hx : x < n) : x ∈ prefs.getD p [] := by
  have hsub : prefs.getD p [] ⊆ List.range n := fun y hy =>
    List.mem_range.2 (validPrefs_getD_lt h hp hy)
  have hperm : List.Perm (prefs.getD p []) (List.range n) :=
    ((validPrefs_getD_nodup h hp).subperm hsub).perm_of_length_le
      (by rw [validPrefs_getD_length h hp, List.length_range])
  exact hperm.mem_iff.2 (List.mem_range.2 hx)

theorem validPrefs_indexOf_lt {n : Nat} {prefs : List (List Nat)} {p x : Nat}
    (h : ValidPrefs n prefs) (hp : p < n) (hx : x < n) :
    (prefs.getD p []).indexOf x < n := by
  have := List.indexOf_lt_length.2 (validPrefs_mem h hp hx)
  rwa [validPrefs_getD_length h hp] at this

theorem lookup_cons_self {m : List (Nat × Nat)} {k v : Nat} :
    ((k, v) :: m).lookup k = some v := by
  simp [List.lookup]

theorem lookup_cons_ne {m : List (Nat × Nat)} {k a b : Nat} (h : ¬ k = a) :
    ((a, b) :: m).lookup k = m.lookup k := by
  have hb : (k == a) = false := by
    simpa using h
  simp [List.lookup, hb]

theorem lookup_eq_none_iff {m : List (Nat × Nat)} {k : Nat} :
    m.lookup k = none ↔ ∀ v, (k, v) ∉ m := by
  induction m with
  | nil => simp [List.lookup]
  | cons a m ih =>
    obtain ⟨a₁, a₂⟩ := a
    by_cases hk : k = a₁
    · subst hk
      rw [lookup_cons_self]
      simp only [List.mem_cons]
      constructor
      · intro h; cases h
      · intro h
        exact absurd (h a₂) (by simp)
    · rw [lookup_cons_ne hk, ih]
      constructor
      · intro h v hv
        rcases List.mem_cons.1 hv with hv' | hv'
        · exact hk (congrArg Prod.fst hv')
        · exact h v hv'
      · intro h v hv
        exact h v (List.mem_cons_of_mem _ hv)

theorem mem_of_lookup_eq_some {m : List (Nat × Nat)} {k v : Nat}
    (h : m.lookup k = some v) : (k, v) ∈ m := by
  induction m with
  | nil => simp [List.lookup] at h
  | cons a m ih =>
    obtain ⟨a₁, a₂⟩ := a
    by_cases hk : k = a₁
    · subst hk
      rw [lookup_cons_self] at h
      cases h
      exact List.mem_cons_self _ _
    · rw [lookup_cons_ne hk] at h
      exact List.mem_cons_of_mem _ (ih h)

theorem mem_keys_iff {m : List (Nat × Nat)} {k : Nat} :
    k ∈ m.map Prod.fst ↔ ∃ v, (k, v) ∈ m := by
  simp only [List.mem_map]
  constructor
  · rintro ⟨⟨a, b⟩, hm, rfl⟩
    exact ⟨b, hm⟩
  · rintro ⟨v, hv⟩
    exact ⟨(k, v), hv, rfl⟩

theorem lookup_eq_none_of_not_mem_keys {m : List (Nat × Nat)} {k : Nat}
    (h : k ∉ m.map Prod.fst) : m.lookup k = none :=
  lookup_eq_none_iff.2 fun v hv => h (mem_keys_iff.2 ⟨v, hv⟩)

theorem key_unique {m : List (Nat × Nat)} (hnd : (m.map Prod.fst).Nodup)
    {k a b : Nat} (ha : (k, a) ∈ m) (hb : (k, b) ∈ m) : a = b := by
  induction m with
  | nil => cases ha
  | cons x m ih =>
    obtain ⟨x₁, x₂⟩ := x
    simp only [List.map_cons, List.nodup_cons] at hnd
    rcases List.mem_cons.1 ha with ha' | ha' <;> rcases List.mem_cons.1 hb with hb' | hb'
    · cases ha'; cases hb'; rfl
    · cases ha'
      exact absurd (mem_keys_iff.2 ⟨b, hb'⟩) hnd.1
    · cases hb'
      exact absurd (mem_keys_iff.2 ⟨a, ha'⟩) hnd.1
    · exact ih hnd.2 ha' hb'

theorem val_unique {m : List (Nat × Nat)} (hnd : (m.map Prod.snd).Nodup)
    {a b c : Nat} (ha : (a, c) ∈ m) (hb : (b, c) ∈ m) : a = b := by
  induction m with
  | nil => cases ha
  | cons x m ih =>
    obtain ⟨x₁, x₂⟩ := x
    simp only [List.map_cons, List.nodup_cons] at hnd
    rcases List.mem_cons.1 ha with ha' | ha' <;> rcases List.mem_cons.1 hb with hb' | hb'
    · cases ha'; cases hb'; rfl
    · cases ha'
      exact absurd (List.mem_map.2 ⟨(b, c), hb', rfl⟩) hnd.1
    · cases hb'
      exact absurd (List.mem_map.2 ⟨(a, c), ha', rfl⟩) hnd.1
    · exact ih hnd.2 ha' hb'

theorem mapSet_of_lookup_none {m : List (Nat × Nat)} {k v : Nat}
    (h : m.lookup k = none) : mapSet m k v = m ++ [(k, v)] := by
  simp [mapSet, h]

theorem exists_split_of_mem {m : List (Nat × Nat)} {k q : Nat}
    (hnd : (m.map Prod.fst).Nodup) (hm : (k, q) ∈ m) :
    ∃ m₁ m₂, m = m₁ ++ (k, q) :: m₂ ∧
      k ∉ m₁.map Prod.fst ∧ k ∉ m₂.map Prod.fst := by
  obtain ⟨m₁, m₂, rfl⟩ := List.append_of_mem hm
  have h1 : ((m₁.map Prod.fst) ++ k :: (m₂.map Prod.fst)).Nodup := by
    simpa using hnd
  have h2 := List.nodup_middle.1 h1
  have h3 : k ∉ m₁.map Prod.fst ++ m₂.map Prod.fst := (List.nodup_cons.1 h2).1
  rw [List.mem_append] at h3
  push_neg at h3
  exact ⟨m₁, m₂, rfl, h3.1, h3.2⟩

theorem lookup_append_cons {m₁ m₂ : List (Nat × Nat)} {k q : Nat}
    (h₁ : k ∉ m₁.map Prod.fst) :
    (m₁ ++ (k, q) :: m₂).lookup k = some q := by
  induction m₁ with
  | nil => simp [List.lookup]
  | cons a m₁ ih =>
    obtain ⟨a₁, a₂⟩ := a
    simp only [List.map_cons, List.mem_cons, not_or] at h₁
    rw [List.cons_append, lookup_cons_ne h₁.1]
    exact ih h₁.2

theorem mapSet_split {m₁ m₂ : List (Nat × Nat)} {k q v : Nat}
    (h₁ : k ∉ m₁.map Prod.fst) (h₂ : k ∉ m₂.map Prod.fst) :
    mapSet (m₁ ++ (k, q) :: m₂) k v = m₁ ++ (k, v) :: m₂ := by
  have hmap : ∀ (m : List (Nat × Nat)), k ∉ m.map Prod.fst →
      m.map (fun p => if p.1 = k then (k, v) else p) = m := by
    intro m hm
    induction m with
    | nil => rfl
    | cons a m ih =>
      simp only [List.map_cons, List.mem_cons, not_or] at hm
      have hne : ¬ a.1 = k := fun hh => hm.1 hh.symm
      simp only [List.map_cons, if_neg hne, ih hm.2]
  simp only [mapSet, lookup_append_cons h₁, Option.isSome_some, if_pos]
  rw [List.map_append, List.map_cons, hmap m₁ h₁, hmap m₂ h₂]
  simp

theorem mem_setAdd {s : List Nat} {x y : Nat} :
    y ∈ setAdd s x ↔ y ∈ s ∨ y = x := by
  by_cases h : x ∈ s
  · simp only [setAdd, if_pos h]
    exact ⟨Or.inl, fun hy => hy.elim id (fun hyx => hyx ▸ h)⟩
  · simp [setAdd, if_neg h]

theorem setAdd_nodup {s : List Nat} {x : Nat} (h : s.Nodup) : (setAdd s x).Nodup := by
  by_cases hx : x ∈ s
  · simpa [setAdd, if_pos hx] using h
  · simp [setAdd, if_neg hx, List.nodup_append, h, hx]

theorem setAdd_length_of_not_mem {s : List Nat} {x : Nat} (h : x ∉ s) :
    (setAdd s x).length = s.length + 1 := by
  simp [setAdd, if_neg h]

theorem foldl_fixed {α β : Type} {f : β → α → β} {l : List α}
    (h : ∀ b, ∀ a ∈ l, f b a = b) : ∀ b, l.foldl f b = b := by
  induction l with
  | nil => intro b; rfl
  | cons a l ih =>
    intro b
    rw [List.foldl_cons, h b a (List.mem_cons_self a l)]
    exact ih (fun b' a' ha' => h b' a' (List.mem_cons_of_mem _ ha')) b

/-!
## The four shapes of a loop iteration
-/

theorem gsStep_free_nil {n : Nat} {pP rP : List (List Nat)} {st : GSState}
    (hfree : st.free = []) : gsStep n pP rP st = st := by
  unfold gsStep
  rw [hfree]

theorem gsStep_exhaust {n : Nat} {pP rP : List (List Nat)} {st : GSState}
    {p : Nat} {rest : List Nat}
    (hfree : st.free = p :: rest) (hcur : n ≤ st.cur p) :
    gsStep n pP rP st = { st with free := rest } := by
  simp only [gsStep, hfree, List.erase_cons_head]
  rw [if_pos hcur]

theorem gsStep_accept {n : Nat} {pP rP : List (List Nat)} {st : GSState}
    {p r : Nat} {rest : List Nat}
    (hfree : st.free = p :: rest) (hcur : ¬ n ≤ st.cur p)
    (hr : r = (pP.getD p []).getD (st.cur p) 0)
    (hlk : st.engaged.lookup r = none) :
    gsStep n pP rP st =
      { engaged := st.engaged ++ [(r, p)],
        free := rest,
        cur := Function.update st.cur p (st.cur p + 1),
        counts := Function.update st.counts p (st.counts p + 1) } := by
  subst hr
  simp only [gsStep, hfree, List.erase_cons_head]
  rw [if_neg hcur]
  simp only [hlk, mapSet_of_lookup_none hlk]

theorem gsStep_bump {n : Nat} {pP rP : List (List Nat)} {st : GSState}
    {p r q : Nat} {rest : List Nat}
    (hfree : st.free = p :: rest) (hcur : ¬ n ≤ st.cur p)
    (hr : r = (pP.getD p []).getD (st.cur p) 0)
    (hlk : st.engaged.lookup r = some q)
    (hcmp : jsIndexOf (rP.getD r []) p < jsIndexOf (rP.getD r []) q) :
    gsStep n pP rP st =
      { engaged := mapSet st.engaged r p,
        free := setAdd rest q,
        cur := Function.update st.cur p (st.cur p + 1),
        counts := Function.update st.counts p (st.counts p + 1) } := by
  subst hr
  simp only [gsStep, hfree, List.erase_cons_head]
  rw [if_neg hcur]
  simp only [hlk]
  rw [if_pos hcmp]

theorem gsStep_reject {n : Nat} {pP rP : List (List Nat)} {st : GSState}
    {p r q : Nat} {rest : List Nat}
    (hfree : st.free = p :: rest) (hcur : ¬ n ≤ st.cur p)
    (hr : r = (pP.getD p []).getD (st.cur p) 0)
    (hlk : st.engaged.lookup r = some q)
    (hcmp : ¬ jsIndexOf (rP.getD r []) p < jsIndexOf (rP.getD r []) q) :
    gsStep n pP rP st =
      { st with
        cur := Function.update st.cur p (st.cur p + 1),
        counts := Function.update st.counts p (st.counts p + 1) } := by
  subst hr
  simp only [gsStep, hfree, List.erase_cons_head]
  rw [if_neg hcur]
  simp only [hlk]
  rw [if_neg hcmp]

/-!
## Preservation of the preference-independent invariant
-/

theorem gsStep_core {n : Nat} {pP rP : List (List Nat)} {st : GSState}
    (h : GSCore n st) : GSCore n (gsStep n pP rP st) := by
  rcases hfree : st.free with _ | ⟨p, rest⟩
  · rw [gsStep_free_nil hfree]; exact h
  have hpfree : p ∈ st.free := by rw [hfree]; exact List.mem_cons_self _ _
  have hrest_nodup : rest.Nodup := by
    have := h.free_nodup
    rw [hfree] at this
    exact (List.nodup_cons.1 this).2
  have hp_rest : p ∉ rest := by
    have := h.free_nodup
    rw [hfree] at this
    exact (List.nodup_cons.1 this).1
  have hrest_sub : ∀ x ∈ rest, x ∈ st.free := by
    intro x hx; rw [hfree]; exact List.mem_cons_of_mem _ hx
  have hp_not_val : ∀ e ∈ st.engaged, e.2 ≠ p :=
    fun e he hep => h.vals_free e he (hep ▸ hpfree)
  by_cases hcur : n ≤ st.cur p
  · rw [gsStep_exhaust hfree hcur]
    exact { free_nodup := hrest_nodup,
            free_lt := fun x hx => h.free_lt x (hrest_sub x hx),
            keys_nodup := h.keys_nodup,
            vals_nodup := h.vals_nodup,
            vals_lt := h.vals_lt,
            vals_free := fun e he hx => h.vals_free e he (hrest_sub _ hx) }
  rcases hlk : st.engaged.lookup ((pP.getD p []).getD (st.cur p) 0) with _ | q
  · -- the receiver is unengaged: append (r, p)
    rw [gsStep_accept hfree hcur rfl hlk]
    have hr_not_key : (pP.getD p []).getD (st.cur p) 0 ∉ st.engaged.map Prod.fst :=
      fun hmem => by
        obtain ⟨v, hv⟩ := mem_keys_iff.1 hmem
        exact lookup_eq_none_iff.1 hlk v hv
    have hp_not_vals : p ∉ st.engaged.map Prod.snd := fun hmem => by
      obtain ⟨e, he, hev⟩ := List.mem_map.1 hmem
      exact hp_not_val e he hev
    refine { free_nodup := hrest_nodup,
             free_lt := fun x hx => h.free_lt x (hrest_sub x hx),
             keys_nodup := ?_,
             vals_nodup := ?_,
             vals_lt := ?_,
             vals_free := ?_ }
    · rw [List.map_append]
      rw [show ((([((pP.getD p []).getD (st.cur p) 0, p)] : List (Nat × Nat)).map
          Prod.fst) = [(pP.getD p []).getD (st.cur p) 0]) from rfl]
      rw [List.nodup_middle]
      simp only [List.append_nil]
      exact List.nodup_cons.2 ⟨hr_not_key, h.keys_nodup⟩
    · rw [List.map_append]
      rw [show ((([((pP.getD p []).getD (st.cur p) 0, p)] : List (Nat × Nat)).map
          Prod.snd) = [p]) from rfl]
      rw [List.nodup_middle]
      simp only [List.append_nil]
      exact List.nodup_cons.2 ⟨hp_not_vals, h.vals_nodup⟩
    · intro e he
      rcases List.mem_append.1 he with he' | he'
      · exact h.vals_lt e he'
      · rw [List.mem_singleton.1 he']
        exact h.free_lt p hpfree
    · intro e he hx
      rcases List.mem_append.1 he with he' | he'
      · exact h.vals_free e he' (hrest_sub _ hx)
      · rw [List.mem_singleton.1 he'] at hx
        exact hp_rest hx
  -- the receiver is engaged to q
  have hq_mem : ((pP.getD p []).getD (st.cur p) 0, q) ∈ st.engaged :=
    mem_of_lookup_eq_some hlk
  have hq_lt : q < n := h.vals_lt _ hq_mem
  have hq_not_free : q ∉ st.free := h.vals_free _ hq_mem
  have hq_rest : q ∉ rest := fun hx => hq_not_free (hrest_sub _ hx)
  obtain ⟨m₁, m₂, heq, hk₁, hk₂⟩ := exists_split_of_mem h.keys_nodup hq_mem
  have hset : mapSet st.engaged ((pP.getD p []).getD (st.cur p) 0) p =
      m₁ ++ ((pP.getD p []).getD (st.cur p) 0, p) :: m₂ := by
    rw [heq]; exact mapSet_split hk₁ hk₂
  have hvals_old : (m₁.map Prod.snd ++ q :: m₂.map Prod.snd).Nodup := by
    have := h.vals_nodup
    rw [heq] at this
    simpa using this
  have hq_not_m : q ∉ m₁.map Prod.snd ++ m₂.map Prod.snd :=
    (List.nodup_cons.1 (List.nodup_middle.1 hvals_old)).1
  have hp_not_m : p ∉ m₁.map Prod.snd ++ m₂.map Prod.snd := by
    intro hmem
    have : p ∈ st.engaged.map Prod.snd := by
      rw [heq]
      rcases List.mem_append.1 hmem with hm | hm
      · simpa using Or.inl hm
      · simp only [List.map_append, List.map_cons, List.mem_append, List.mem_cons]
        exact Or.inr (Or.inr hm)
    obtain ⟨e, he, hev⟩ := List.mem_map.1 this
    exact hp_not_val e he hev
  have hmem_sub : ∀ e, e ∈ m₁ ∨ e ∈ m₂ → e ∈ st.engaged := by
    intro e he
    rw [heq]
    rcases he with he | he
    · exact List.mem_append.2 (Or.inl he)
    · exact List.mem_append.2 (Or.inr (List.mem_cons_of_mem _ he))
  have hval_ne_q : ∀ e, e ∈ m₁ ∨ e ∈ m₂ → e.2 ≠ q := by
    intro e he hev
    apply hq_not_m
    rcases he with he | he
    · exact List.mem_append.2 (Or.inl (List.mem_map.2 ⟨e, he, hev⟩))
    · exact List.mem_append.2 (Or.inr (List.mem_map.2 ⟨e, he, hev⟩))
  by_cases hcmp : jsIndexOf (rP.getD ((pP.getD p []).getD (st.cur p) 0) []) p <
      jsIndexOf (rP.getD ((pP.getD p []).getD (st.cur p) 0) []) q
  · -- bump: q is replaced by p and becomes free again
    rw [gsStep_bump hfree hcur rfl hlk hcmp, hset]
    have hpq : p ≠ q := fun hpq => hq_not_free (hpq ▸ hpfree)
    refine { free_nodup := ?_,
             free_lt := ?_,
             keys_nodup := ?_,
             vals_nodup := ?_,
             vals_lt := ?_,
             vals_free := ?_ }
    · exact setAdd_nodup hrest_nodup
    · intro x hx
      rcases mem_setAdd.1 hx with hx' | hx'
      · exact h.free_lt x (hrest_sub x hx')
      · exact hx' ▸ hq_lt
    · have : (m₁ ++ ((pP.getD p []).getD (st.cur p) 0, p) :: m₂).map Prod.fst =
          st.engaged.map Prod.fst := by
        rw [heq]; simp
      rw [this]; exact h.keys_nodup
    · have : (m₁ ++ ((pP.getD p []).getD (st.cur p) 0, p) :: m₂).map Prod.snd =
          m₁.map Prod.snd ++ p :: m₂.map Prod.snd := by simp
      rw [this, List.nodup_middle]
      exact List.nodup_cons.2
        ⟨hp_not_m, (List.nodup_cons.1 (List.nodup_middle.1 hvals_old)).2⟩
    · intro e he
      rcases List.mem_append.1 he with he' | he'
      · exact h.vals_lt e (hmem_sub e (Or.inl he'))
      · rcases List.mem_cons.1 he' with he'' | he''
        · rw [he'']
          exact h.free_lt p hpfree
        · exact h.vals_lt e (hmem_sub e (Or.inr he''))
    · intro e he hx
      rcases mem_setAdd.1 hx with hx' | hx'
      · rcases List.mem_append.1 he with he' | he'
        · exact h.vals_free e (hmem_sub e (Or.inl he')) (hrest_sub _ hx')
        · rcases List.mem_cons.1 he' with he'' | he''
          · rw [he''] at hx'
            exact hp_rest hx'
          · exact h.vals_free e (hmem_sub e (Or.inr he'')) (hrest_sub _ hx')
      · rcases List.mem_append.1 he with he' | he'
        · exact hval_ne_q e (Or.inl he') (hx' ▸ rfl)
        · rcases List.mem_cons.1 he' with he'' | he''
          · rw [he''] at hx'
            exact hpq hx'
          · exact hval_ne_q e (Or.inr he'') (hx' ▸ rfl)
  · -- reject: nothing changes but the cursor
    rw [gsStep_reject hfree hcur rfl hlk hcmp]
    exact { free_nodup := h.free_nodup,
            free_lt := h.free_lt,
            keys_nodup := h.keys_nodup,
            vals_nodup := h.vals_nodup,
            vals_lt := h.vals_lt,
            vals_free := h.vals_free }

/-!
## Termination: the measure decreases and the fuel suffices
-/

theorem sum_remaining_update {n p v : Nat} (c : Nat → Nat) (hp : p < n) :
    ∑ x ∈ Finset.range n, (n - Function.update c p v x)
      = (n - v) + ∑ x ∈ (Finset.range n).erase p, (n - c x) := by
  have hfun : ∀ x, (n - Function.update c p v x)
      = Function.update (fun x => n - c x) p (n - v) x := by
    intro x
    by_cases hx : x = p
    · subst hx; simp
    · simp [Function.update, hx]
  calc ∑ x ∈ Finset.range n, (n - Function.update c p v x)
      = ∑ x ∈ Finset.range n, Function.update (fun x => n - c x) p (n - v) x :=
        Finset.sum_congr rfl (fun x _ => hfun x)
    _ = (n - v) + ∑ x ∈ Finset.range n \ {p}, (n - c x) :=
        Finset.sum_update_of_mem (Finset.mem_range.2 hp) _ _
    _ = (n - v) + ∑ x ∈ (Finset.range n).erase p, (n - c x) := by
        rw [Finset.sdiff_singleton_eq_erase]

theorem sum_remaining_split {n p : Nat} (c : Nat → Nat) (hp : p < n) :
    ∑ x ∈ Finset.range n, (n - c x)
      = (n - c p) + ∑ x ∈ (Finset.range n).erase p, (n - c x) :=
  (Finset.add_sum_erase _ _ (Finset.mem_range.2 hp)).symm

theorem gsStep_measure {n : Nat} {pP rP : List (List Nat)} {st : GSState}
    (h : GSCore n st) (hne : st.free ≠ []) :
    gsMeasure n (gsStep n pP rP st) < gsMeasure n st := by
  rcases hfree : st.free with _ | ⟨p, rest⟩
  · exact absurd hfree hne
  have hp : p < n := h.free_lt p (by rw [hfree]; exact List.mem_cons_self _ _)
  have hlen : st.free.length = rest.length + 1 := by rw [hfree]; rfl
  by_cases hcur : n ≤ st.cur p
  · rw [gsStep_exhaust hfree hcur]
    simp only [gsMeasure]
    omega
  · have hcur' : st.cur p < n := Nat.lt_of_not_le hcur
    rcases hlk : st.engaged.lookup ((pP.getD p []).getD (st.cur p) 0) with _ | q
    · rw [gsStep_accept hfree hcur rfl hlk]
      simp only [gsMeasure]
      rw [sum_remaining_update st.cur hp, sum_remaining_split st.cur hp]
      omega
    · have hq_mem : ((pP.getD p []).getD (st.cur p) 0, q) ∈ st.engaged :=
        mem_of_lookup_eq_some hlk
      have hq_rest : q ∉ rest := fun hx =>
        h.vals_free _ hq_mem (by rw [hfree]; exact List.mem_cons_of_mem _ hx)
      by_cases hcmp : jsIndexOf (rP.getD ((pP.getD p []).getD (st.cur p) 0) []) p <
          jsIndexOf (rP.getD ((pP.getD p []).getD (st.cur p) 0) []) q
      · rw [gsStep_bump hfree hcur rfl hlk hcmp]
        simp only [gsMeasure]
        rw [setAdd_length_of_not_mem hq_rest,
          sum_remaining_update st.cur hp, sum_remaining_split st.cur hp]
        omega
      · rw [gsStep_reject hfree hcur rfl hlk hcmp]
        simp only [gsMeasure]
        rw [sum_remaining_update st.cur hp, sum_remaining_split st.cur hp]
        omega

theorem gsRun_terminates {n : Nat} {pP rP : List (List Nat)} :
    ∀ (f : Nat) (st : GSState), GSCore n st → gsMeasure n st ≤ f →
      ∃ st', gsRun n pP rP f st = some st' := by
  intro f
  induction f with
  | zero =>
    intro st _ hm
    have hfree : st.free = [] := by
      have : st.free.length = 0 := by
        simp only [gsMeasure] at hm
        omega
      exact List.eq_nil_of_length_eq_zero this
    exact ⟨st, by simp [gsRun, hfree]⟩
  | succ f ih =>
    intro st hcore hm
    by_cases hfree : st.free = []
    · exact ⟨st, by simp [gsRun, hfree]⟩
    · have hlt := @gsStep_measure n pP rP st hcore hfree
      obtain ⟨st', hst'⟩ := ih (gsStep n pP rP st) (gsStep_core hcore) (by omega)
      exact ⟨st', by simp [gsRun, hfree, hst']⟩

theorem gsInit_core {n : Nat} {c : Nat → Nat} : GSCore n (gsInit n c) :=
  { free_nodup := List.nodup_range n,
    free_lt := fun p hp => List.mem_range.1 hp,
    keys_nodup := List.nodup_nil,
    vals_nodup := List.nodup_nil,
    vals_lt := fun e he => absurd he (List.not_mem_nil e),
    vals_free := fun e he => absurd he (List.not_mem_nil e) }

theorem gsInit_measure {n : Nat} {c : Nat → Nat} :
    gsMeasure n (gsInit n c) = n + n * n := by
  simp [gsMeasure, gsInit, Finset.sum_const, Finset.card_range, Nat.smul_one_eq_cast]

/-- The solve entry points always return a result: the loop empties the free
set within its fuel for every instance, valid or not (no error can escape the
constructor or the solver). -/
theorem solveStudentsProposeFrom_isSome (inst : SMInstance) (c0 : Nat → Nat) :
    (solveStudentsProposeFrom inst c0).isSome = true := by
  obtain ⟨st', hst'⟩ := @gsRun_terminates inst.n inst.studentPrefs
    inst.establishmentPrefs (inst.n * inst.n + inst.n) (gsInit inst.n c0) gsInit_core
    (by rw [gsInit_measure]; omega)
  simp [solveStudentsProposeFrom, hst']

theorem solveEstablishmentsPropose_isSome (inst : SMInstance) :
    (solveEstablishmentsPropose inst).isSome = true := by
  obtain ⟨st', hst'⟩ := @gsRun_terminates inst.n inst.establishmentPrefs
    inst.studentPrefs (inst.n * inst.n + inst.n) (gsInit inst.n (fun _ => 0)) gsInit_core
    (by rw [gsInit_measure]; omega)
  simp [solveEstablishmentsPropose, hst']

/-- Transport of an invariant along a completed run. -/
theorem gsRun_induct {n : Nat} {pP rP : List (List Nat)} {P : GSState → Prop}
    (hstep : ∀ st, st.free ≠ [] → P st → P (gsStep n pP rP st)) :
    ∀ (f : Nat) (st st' : GSState), gsRun n pP rP f st = some st' → P st →
      P st' ∧ st'.free = [] := by
  intro f
  induction f with
  | zero =>
    intro st st' hrun hP
    by_cases hfree : st.free = []
    · simp only [gsRun, if_pos hfree, Option.some.injEq] at hrun
      exact ⟨hrun ▸ hP, hrun ▸ hfree⟩
    · simp [gsRun, hfree] at hrun
  | succ f ih =>
    intro st st' hrun hP
    by_cases hfree : st.free = []
    · simp only [gsRun, if_pos hfree, Option.some.injEq] at hrun
      exact ⟨hrun ▸ hP, hrun ▸ hfree⟩
    · simp only [gsRun, if_neg hfree] at hrun
      exact ih _ _ hrun (hstep st hfree hP)

/-!
## Preservation of the full invariant on valid instances
-/

/-- Pigeonhole: under the invariant, a free proposer has not exhausted its
list.  If it had, every receiver it names (all of them) would be engaged, to
`n` distinct proposers, so every proposer — including the free one — would be
engaged, a contradiction.  This is the reason the exhausted-proposer branch of
the loop is unreachable. -/
theorem gsInv_cur_lt_of_free {n : Nat} {pP rP : List (List Nat)} {st : GSState}
    {p : Nat} (VP : ValidPrefs n pP) (h : GSInv n pP rP st)
    (hp_mem : p ∈ st.free) : st.cur p < n := by
  by_contra hle
  push_neg at hle
  have hp : p < n := h.free_lt p hp_mem
  have hall : ∀ r < n, ∃ q, (r, q) ∈ st.engaged := by
    intro r hr
    have hmem : r ∈ pP.getD p [] := validPrefs_mem VP hp hr
    have hidx : (pP.getD p []).indexOf r < n := validPrefs_indexOf_lt VP hp hr
    have hgd : (pP.getD p []).getD ((pP.getD p []).indexOf r) 0 = r := by
      rw [List.getD_eq_getElem _ _ (by rw [validPrefs_getD_length VP hp]; exact hidx)]
      exact List.getElem_indexOf (List.indexOf_lt_length.2 hmem)
    obtain ⟨q, hq, _⟩ := h.proposed p hp _ (lt_of_lt_of_le hidx hle)
    rw [hgd] at hq
    exact ⟨q, hq⟩
  have hkeys_sub : List.range n ⊆ st.engaged.map Prod.fst := by
    intro r hrr
    obtain ⟨q, hq⟩ := hall r (List.mem_range.1 hrr)
    exact mem_keys_iff.2 ⟨q, hq⟩
  have hlen : n ≤ st.engaged.length := by
    have hsp := ((List.nodup_range n).subperm hkeys_sub).length_le
    simpa using hsp
  have hvals_mem : p ∈ st.engaged.map Prod.snd := by
    have hsub : st.engaged.map Prod.snd ⊆ List.range n := by
      intro x hx
      obtain ⟨e, he, hev⟩ := List.mem_map.1 hx
      exact List.mem_range.2 (hev ▸ h.vals_lt e he)
    have hperm : List.Perm (st.engaged.map Prod.snd) (List.range n) :=
      (h.vals_nodup.subperm hsub).perm_of_length_le (by simpa using hlen)
    exact hperm.mem_iff.2 (List.mem_range.2 hp)
  obtain ⟨e, he, hev⟩ := List.mem_map.1 hvals_mem
  exact h.vals_free e he (hev ▸ hp_mem)

theorem gsStep_inv {n : Nat} {pP rP : List (List Nat)} {st : GSState}
    (VP : ValidPrefs n pP) (VR : ValidPrefs n rP)
    (h : GSInv n pP rP st) : GSInv n pP rP (gsStep n pP rP st) := by
  have hcore : GSCore n (gsStep n pP rP st) := gsStep_core h.toGSCore
  rcases hfree : st.free with _ | ⟨p, rest⟩
  · rw [gsStep_free_nil hfree] at hcore ⊢
    exact h
  have hpfree : p ∈ st.free := by rw [hfree]; exact List.mem_cons_self _ _
  have hp : p < n := h.free_lt p hpfree
  have hi : st.cur p < n := gsInv_cur_lt_of_free VP h hpfree
  have hcur : ¬ n ≤ st.cur p := Nat.not_le.2 hi
  have hp_rest : p ∉ rest := by
    have := h.free_nodup
    rw [hfree] at this
    exact (List.nodup_cons.1 this).1
  have hrest_sub : ∀ x ∈ rest, x ∈ st.free := by
    intro x hx; rw [hfree]; exact List.mem_cons_of_mem _ hx
  have hp_not_val : ∀ e ∈ st.engaged, e.2 ≠ p :=
    fun e he hep => h.vals_free e he (hep ▸ hpfree)
  set rr := (pP.getD p []).getD (st.cur p) 0 with hrr
  have hr_mem : rr ∈ pP.getD p [] := by
    rw [hrr, List.getD_eq_getElem (pP.getD p []) 0
      (by rw [validPrefs_getD_length VP hp]; exact hi)]
    exact List.getElem_mem _
  have hrn : rr < n := validPrefs_getD_lt VP hp hr_mem
  have hmemP : p ∈ rP.getD rr [] := validPrefs_mem VR hrn hp
  have hcur_le' : ∀ x, Function.update st.cur p (st.cur p + 1) x ≤ n := by
    intro x
    by_cases hx : x = p
    · subst hx; simp [Function.update]; omega
    · rw [Function.update_noteq hx]; exact h.cur_le x
  rcases hlk : st.engaged.lookup rr with _ | q
  · -- accept branch
    rw [gsStep_accept hfree hcur hrr hlk] at hcore ⊢
    refine { toGSCore := hcore, keys_lt := ?_, engaged_of_not_free := ?_,
             cur_le := hcur_le', engaged_latest := ?_, proposed := ?_ }
    · intro e he
      rcases List.mem_append.1 he with he' | he'
      · exact h.keys_lt e he'
      · rw [List.mem_singleton.1 he']
        exact hrn
    · intro x hx hxf
      by_cases hxp : x = p
      · exact ⟨(rr, p), List.mem_append.2 (Or.inr (List.mem_singleton.2 rfl)), hxp.symm⟩
      · have hxfree : x ∉ st.free := by
          rw [hfree]
          intro hmem
          rcases List.mem_cons.1 hmem with hh | hh
          · exact hxp hh
          · exact hxf hh
        obtain ⟨e, he, hev⟩ := h.engaged_of_not_free x hx hxfree
        exact ⟨e, List.mem_append.2 (Or.inl he), hev⟩
    · intro e he
      dsimp only at he ⊢
      rcases List.mem_append.1 he with he' | he'
      · have hne := hp_not_val e he'
        obtain ⟨h1, h2⟩ := h.engaged_latest e he'
        rw [Function.update_noteq hne]
        exact ⟨h1, h2⟩
      · rw [List.mem_singleton.1 he']
        dsimp only
        rw [Function.update_same]
        exact ⟨by omega, by simpa using hrr.symm⟩
    · intro p₀ hp₀ i₀ hi₀
      dsimp only at hi₀ ⊢
      by_cases hpp : p₀ = p
      · subst hpp
        rw [Function.update_same] at hi₀
        by_cases hii : i₀ = st.cur p₀
        · subst hii
          exact ⟨p₀, List.mem_append.2 (Or.inr (List.mem_singleton.2 (by rw [hrr]))),
            le_refl _⟩
        · have : i₀ < st.cur p₀ := by omega
          obtain ⟨q₀, hq₀, hle₀⟩ := h.proposed p₀ hp₀ i₀ this
          exact ⟨q₀, List.mem_append.2 (Or.inl hq₀), hle₀⟩
      · rw [Function.update_noteq hpp] at hi₀
        obtain ⟨q₀, hq₀, hle₀⟩ := h.proposed p₀ hp₀ i₀ hi₀
        exact ⟨q₀, List.mem_append.2 (Or.inl hq₀), hle₀⟩
  -- the receiver rr is engaged to q
  have hq_mem : (rr, q) ∈ st.engaged := mem_of_lookup_eq_some hlk
  have hqn : q < n := h.vals_lt _ hq_mem
  have hmemQ : q ∈ rP.getD rr [] := validPrefs_mem VR hrn hqn
  by_cases hcmp : jsIndexOf (rP.getD rr []) p < jsIndexOf (rP.getD rr []) q
  · -- bump branch
    have hcmpN : (rP.getD rr []).indexOf p < (rP.getD rr []).indexOf q :=
      (jsIndexOf_lt_iff hmemP hmemQ).1 hcmp
    obtain ⟨m₁, m₂, heq, hk₁, hk₂⟩ := exists_split_of_mem h.keys_nodup hq_mem
    have hset : mapSet st.engaged rr p = m₁ ++ (rr, p) :: m₂ := by
      rw [heq]; exact mapSet_split hk₁ hk₂
    have hsub_old : ∀ e, e ∈ m₁ ∨ e ∈ m₂ → e ∈ st.engaged := by
      intro e he
      rw [heq]
      rcases he with he | he
      · exact List.mem_append.2 (Or.inl he)
      · exact List.mem_append.2 (Or.inr (List.mem_cons_of_mem _ he))
    have hmem_new : ∀ e, e ∈ m₁ ++ (rr, p) :: m₂ ↔ ((e ∈ m₁ ∨ e ∈ m₂) ∨ e = (rr, p)) := by
      intro e
      constructor
      · intro he
        rcases List.mem_append.1 he with he' | he'
        · exact Or.inl (Or.inl he')
        · rcases List.mem_cons.1 he' with he'' | he''
          · exact Or.inr he''
          · exact Or.inl (Or.inr he'')
      · intro he
        rcases he with (he' | he') | he'
        · exact List.mem_append.2 (Or.inl he')
        · exact List.mem_append.2 (Or.inr (List.mem_cons_of_mem _ he'))
        · exact he' ▸ List.mem_append.2 (Or.inr (List.mem_cons_self _ _))
    rw [gsStep_bump hfree hcur hrr hlk hcmp] at hcore ⊢
    rw [hset] at hcore ⊢
    refine { toGSCore := hcore, keys_lt := ?_, engaged_of_not_free := ?_,
             cur_le := hcur_le', engaged_latest := ?_, proposed := ?_ }
    · intro e he
      rcases (hmem_new e).1 he with he' | he'
      · exact h.keys_lt e (hsub_old e he')
      · rw [he']
        exact hrn
    · intro x hx hxf
      by_cases hxp : x = p
      · exact ⟨(rr, p), (hmem_new _).2 (Or.inr rfl), hxp.symm⟩
      · have hxq : x ≠ q := by
          intro hxq
          exact hxf (mem_setAdd.2 (Or.inr hxq))
        have hxfree : x ∉ st.free := by
          rw [hfree]
          intro hmem
          rcases List.mem_cons.1 hmem with hh | hh
          · exact hxp hh
          · exact hxf (mem_setAdd.2 (Or.inl hh))
        obtain ⟨e, he, hev⟩ := h.engaged_of_not_free x hx hxfree
        have he' : (e ∈ m₁ ∨ e ∈ m₂) ∨ e = (rr, q) := by
          rw [heq] at he
          rcases List.mem_append.1 he with hh | hh
          · exact Or.inl (Or.inl hh)
          · rcases List.mem_cons.1 hh with hh' | hh'
            · exact Or.inr hh'
            · exact Or.inl (Or.inr hh')
        rcases he' with he' | he'
        · exact ⟨e, (hmem_new e).2 (Or.inl he'), hev⟩
        · exact absurd (by rw [← hev, he'] : x = q) hxq
    · intro e he
      dsimp only at he ⊢
      rcases (hmem_new e).1 he with he' | he'
      · have heo := hsub_old e he'
        have hne := hp_not_val e heo
        obtain ⟨h1, h2⟩ := h.engaged_latest e heo
        rw [Function.update_noteq hne]
        exact ⟨h1, h2⟩
      · rw [he']
        dsimp only
        rw [Function.update_same]
        exact ⟨by omega, by simpa using hrr.symm⟩
    · intro p₀ hp₀ i₀ hi₀
      dsimp only at hi₀ ⊢
      have hmain : ∀ i₀ < st.cur p₀, ∃ q', ((pP.getD p₀ []).getD i₀ 0, q') ∈ m₁ ++ (rr, p) :: m₂ ∧
          (rP.getD ((pP.getD p₀ []).getD i₀ 0) []).indexOf q' ≤
            (rP.getD ((pP.getD p₀ []).getD i₀ 0) []).indexOf p₀ := by
        intro i₁ hi₁
        obtain ⟨q₀, hq₀, hle₀⟩ := h.proposed p₀ hp₀ i₁ hi₁
        by_cases hr₀ : (pP.getD p₀ []).getD i₁ 0 = rr
        · rw [hr₀] at hq₀ hle₀ ⊢
          have hq₀q : q₀ = q := key_unique h.keys_nodup hq₀ hq_mem
          rw [hq₀q] at hle₀
          exact ⟨p, (hmem_new _).2 (Or.inr rfl), le_trans (le_of_lt hcmpN) hle₀⟩
        · have hq₀' : (( pP.getD p₀ []).getD i₁ 0, q₀) ∈ m₁ ∨ ((pP.getD p₀ []).getD i₁ 0, q₀) ∈ m₂ := by
            rw [heq] at hq₀
            rcases List.mem_append.1 hq₀ with hh | hh
            · exact Or.inl hh
            · rcases List.mem_cons.1 hh with hh' | hh'
              · exact absurd (congrArg Prod.fst hh') hr₀
              · exact Or.inr hh'
          exact ⟨q₀, (hmem_new _).2 (Or.inl hq₀'), hle₀⟩
      by_cases hpp : p₀ = p
      · subst hpp
        rw [Function.update_same] at hi₀
        by_cases hii : i₀ = st.cur p₀
        · subst hii
          exact ⟨p₀, (hmem_new _).2 (Or.inr (by rw [hrr])), le_refl _⟩
        · exact hmain i₀ (by omega)
      · rw [Function.update_noteq hpp] at hi₀
        exact hmain i₀ hi₀
  · -- reject branch
    have hcmpN : (rP.getD rr []).indexOf q ≤ (rP.getD rr []).indexOf p := by
      have := (jsIndexOf_lt_iff hmemQ hmemP).2
      by_contra hlt
      push_neg at hlt
      exact hcmp ((jsIndexOf_lt_iff hmemP hmemQ).2 (by omega))
    rw [gsStep_reject hfree hcur hrr hlk hcmp] at hcore ⊢
    refine { toGSCore := hcore, keys_lt := h.keys_lt,
             engaged_of_not_free := ?_, cur_le := hcur_le',
             engaged_latest := ?_, proposed := ?_ }
    · intro x hx hxf
      exact h.engaged_of_not_free x hx hxf
    · intro e he
      dsimp only at he ⊢
      have hne := hp_not_val e he
      obtain ⟨h1, h2⟩ := h.engaged_latest e he
      rw [Function.update_noteq hne]
      exact ⟨h1, h2⟩
    · intro p₀ hp₀ i₀ hi₀
      dsimp only at hi₀ ⊢
      by_cases hpp : p₀ = p
      · subst hpp
        rw [Function.update_same] at hi₀
        by_cases hii : i₀ = st.cur p₀
        · subst hii
          exact ⟨q, by rw [← hrr]; exact hq_mem, by rw [← hrr]; exact hcmpN⟩
        · exact h.proposed p₀ hp₀ i₀ (by omega)
      · rw [Function.update_noteq hpp] at hi₀
        exact h.proposed p₀ hp₀ i₀ hi₀

theorem gsInit_inv {n : Nat} {pP rP : List (List Nat)} {c : Nat → Nat} :
    GSInv n pP rP (gsInit n c) :=
  { toGSCore := gsInit_core,
    keys_lt := fun e he => absurd he (List.not_mem_nil e),
    engaged_of_not_free := fun p hp hpf =>
      absurd (List.mem_range.2 hp) hpf,
    cur_le := fun _ => Nat.zero_le n,
    engaged_latest := fun e he => absurd he (List.not_mem_nil e),
    proposed := fun p _ i hi => absurd hi (by simp [gsInit]) }

/-!
## The final state: a stable bijection
-/

theorem lookup_eq_some_of_mem {m : List (Nat × Nat)} {k v : Nat}
    (hnd : (m.map Prod.fst).Nodup) (h : (k, v) ∈ m) : m.lookup k = some v := by
  cases hl : m.lookup k with
  | none => exact absurd h (lookup_eq_none_iff.1 hl v)
  | some w => rw [key_unique hnd h (mem_of_lookup_eq_some hl)]

theorem validPrefs_getD_mem_self {n : Nat} {prefs : List (List Nat)} {p i : Nat}
    (h : ValidPrefs n prefs) (hp : p < n) (hi : i < n) :
    (prefs.getD p []).getD i 0 ∈ prefs.getD p [] := by
  rw [List.getD_eq_getElem (prefs.getD p []) 0
    (by rw [validPrefs_getD_length h hp]; exact hi)]
  exact List.getElem_mem _

theorem validPrefs_indexOf_getD {n : Nat} {prefs : List (List Nat)} {p i : Nat}
    (h : ValidPrefs n prefs) (hp : p < n) (hi : i < n) :
    (prefs.getD p []).indexOf ((prefs.getD p []).getD i 0) = i := by
  rw [List.getD_eq_getElem (prefs.getD p []) 0
    (by rw [validPrefs_getD_length h hp]; exact hi)]
  exact List.indexOf_getElem (validPrefs_getD_nodup h hp) i _

theorem validPrefs_getD_indexOf_eq {n : Nat} {prefs : List (List Nat)} {p x : Nat}
    (h : ValidPrefs n prefs) (hp : p < n) (hx : x ∈ prefs.getD p []) :
    (prefs.getD p []).getD ((prefs.getD p []).indexOf x) 0 = x := by
  rw [List.getD_eq_getElem (prefs.getD p []) 0
    (List.indexOf_lt_length.2 hx)]
  exact List.getElem_indexOf (List.indexOf_lt_length.2 hx)

theorem gsRun_inv {n : Nat} {pP rP : List (List Nat)} {f : Nat} {st st' : GSState}
    (VP : ValidPrefs n pP) (VR : ValidPrefs n rP)
    (hrun : gsRun n pP rP f st = some st') (h : GSInv n pP rP st) :
    GSInv n pP rP st' ∧ st'.free = [] :=
  gsRun_induct (fun _ _ hs => gsStep_inv VP VR hs) f st st' hrun h

/-- In a finished state every proposer is an engaged value. -/
theorem final_vals_complete {n : Nat} {pP rP : List (List Nat)} {st : GSState}
    (h : GSInv n pP rP st) (hfree : st.free = []) :
    ∀ p < n, ∃ e ∈ st.engaged, e.2 = p :=
  fun p hp => h.engaged_of_not_free p hp (by rw [hfree]; exact List.not_mem_nil p)

theorem final_vals_perm {n : Nat} {pP rP : List (List Nat)} {st : GSState}
    (h : GSInv n pP rP st) (hfree : st.free = []) :
    List.Perm (st.engaged.map Prod.snd) (List.range n) := by
  have hsub : st.engaged.map Prod.snd ⊆ List.range n := by
    intro x hx
    obtain ⟨e, he, hev⟩ := List.mem_map.1 hx
    exact List.mem_range.2 (hev ▸ h.vals_lt e he)
  have hsub' : List.range n ⊆ st.engaged.map Prod.snd := by
    intro x hx
    obtain ⟨e, he, hev⟩ := final_vals_complete h hfree x (List.mem_range.1 hx)
    exact List.mem_map.2 ⟨e, he, hev⟩
  exact (h.vals_nodup.subperm hsub).antisymm ((List.nodup_range n).subperm hsub')

theorem final_length {n : Nat} {pP rP : List (List Nat)} {st : GSState}
    (h : GSInv n pP rP st) (hfree : st.free = []) : st.engaged.length = n := by
  have := (final_vals_perm h hfree).length_eq
  simpa using this

theorem final_keys_perm {n : Nat} {pP rP : List (List Nat)} {st : GSState}
    (h : GSInv n pP rP st) (hfree : st.free = []) :
    List.Perm (st.engaged.map Prod.fst) (List.range n) := by
  have hsub : st.engaged.map Prod.fst ⊆ List.range n := by
    intro x hx
    obtain ⟨e, he, hev⟩ := List.mem_map.1 hx
    exact List.mem_range.2 (hev ▸ h.keys_lt e he)
  refine (h.keys_nodup.subperm hsub).perm_of_length_le ?_
  rw [List.length_range, List.length_map]
  exact le_of_eq (final_length h hfree).symm

/-- The central stability fact about a finished run: whenever a matched
proposer strictly prefers another engaged receiver to its own, that receiver
strictly prefers its own proposer back.  (`e₁`, `e₂` are engaged entries,
`(receiver, proposer)`.) -/
theorem final_stable {n : Nat} {pP rP : List (List Nat)} {st : GSState}
    (VP : ValidPrefs n pP) (VR : ValidPrefs n rP)
    (h : GSInv n pP rP st) (hfree : st.free = []) :
    ∀ e₁ ∈ st.engaged, ∀ e₂ ∈ st.engaged,
      (pP.getD e₁.2 []).indexOf e₂.1 < (pP.getD e₁.2 []).indexOf e₁.1 →
        (rP.getD e₂.1 []).indexOf e₂.2 < (rP.getD e₂.1 []).indexOf e₁.2 := by
  rintro ⟨r, q⟩ h₁ ⟨r', q'⟩ h₂ hpref
  dsimp only at hpref ⊢
  have hq : q < n := h.vals_lt _ h₁
  have hq' : q' < n := h.vals_lt _ h₂
  have hr : r < n := h.keys_lt _ h₁
  have hr' : r' < n := h.keys_lt _ h₂
  obtain ⟨hc1, hc2⟩ := h.engaged_latest _ h₁
  dsimp only at hc1 hc2
  have hcur_lt : st.cur q - 1 < n := by
    have := h.cur_le q
    omega
  have hrank_r : (pP.getD q []).indexOf r = st.cur q - 1 := by
    rw [← hc2]
    exact validPrefs_indexOf_getD VP hq hcur_lt
  have hr'_mem : r' ∈ pP.getD q [] := validPrefs_mem VP hq hr'
  have hj : (pP.getD q []).indexOf r' < st.cur q := by
    rw [hrank_r] at hpref
    omega
  obtain ⟨q₀, hq₀_mem, hq₀_le⟩ := h.proposed q hq _ hj
  rw [validPrefs_getD_indexOf_eq VP hq hr'_mem] at hq₀_mem hq₀_le
  have hq₀_eq : q₀ = q' := key_unique h.keys_nodup hq₀_mem h₂
  rw [hq₀_eq] at hq₀_le
  have hne : q' ≠ q := by
    intro hqq
    rw [hqq] at h₂
    have hrr' : r' = r := val_unique h.vals_nodup h₂ h₁
    rw [hrr'] at hpref
    exact lt_irrefl _ hpref
  have hmemq : q ∈ rP.getD r' [] := validPrefs_mem VR hr' hq
  have hmemq' : q' ∈ rP.getD r' [] := validPrefs_mem VR hr' hq'
  have := (List.indexOf_inj hmemq' hmemq).not.2 hne
  omega

/-!
## The stability verifier on a stable bijection
-/

/-- If `mm` (student ↦ establishment) is a complete matching over `[0, n)`
with no mutually-preferring pair, `verifyStability` reports it stable with no
blocking pairs. -/
theorem verifyStability_empty {n : Nat} {sP eP : List (List Nat)}
    (VS : ValidPrefs n sP) (VE : ValidPrefs n eP) (mm : List (Nat × Nat))
    (hkeys : (mm.map Prod.fst).Nodup)
    (hbound : ∀ e ∈ mm, e.1 < n ∧ e.2 < n)
    (hcomplete : ∀ s < n, ∃ e, (s, e) ∈ mm)
    (hstable : ∀ a ∈ mm, ∀ b ∈ mm,
      (sP.getD a.1 []).indexOf b.2 < (sP.getD a.1 []).indexOf a.2 →
        (eP.getD b.2 []).indexOf b.1 < (eP.getD b.2 []).indexOf a.1) :
    verifyStability n sP eP mm = ⟨true, []⟩ := by
  have hblock : ∀ s ∈ List.range n, blockingFor sP eP mm s = [] := by
    intro s hs
    have hsn : s < n := List.mem_range.1 hs
    obtain ⟨e, he⟩ := hcomplete s hsn
    have hen : e < n := (hbound _ he).2
    have hlk : mm.lookup s = some e := lookup_eq_some_of_mem hkeys he
    have hmem_e : e ∈ sP.getD s [] := validPrefs_mem VS hsn hen
    have hrank : jsIndexOf (sP.getD s []) e = ((sP.getD s []).indexOf e : Int) :=
      jsIndexOf_of_mem hmem_e
    unfold blockingFor
    rw [hlk]
    simp only [hrank, Int.toNat_ofNat]
    refine foldl_fixed ?_ []
    intro acc j hj
    have hjn : j < n := lt_of_lt_of_le (List.mem_range.1 hj)
      (le_of_lt (validPrefs_indexOf_lt VS hsn hen))
    have hprefE_mem : (sP.getD s []).getD j 0 ∈ sP.getD s [] :=
      validPrefs_getD_mem_self VS hsn hjn
    have hprefE_lt : (sP.getD s []).getD j 0 < n :=
      validPrefs_getD_lt VS hsn hprefE_mem
    have hidxj : (sP.getD s []).indexOf ((sP.getD s []).getD j 0) = j :=
      validPrefs_indexOf_getD VS hsn hjn
    cases hfind : mm.find? (fun q => q.2 = (sP.getD s []).getD j 0) with
    | none => rfl
    | some q2 =>
      have hq2_mem : q2 ∈ mm := List.mem_of_find?_eq_some hfind
      have hq2_val : q2.2 = (sP.getD s []).getD j 0 := by
        have := List.find?_some hfind
        exact of_decide_eq_true this
      have hq2_lt : q2.1 < n := (hbound _ hq2_mem).1
      have hlt : (eP.getD ((sP.getD s []).getD j 0) []).indexOf q2.1 <
          (eP.getD ((sP.getD s []).getD j 0) []).indexOf s := by
        have := hstable (s, e) he q2 hq2_mem
          (by
            dsimp only
            rw [hq2_val, hidxj]
            exact List.mem_range.1 hj)
        rw [hq2_val] at this
        exact this
      have hmem_s : s ∈ eP.getD ((sP.getD s []).getD j 0) [] :=
        validPrefs_mem VE hprefE_lt hsn
      have hmem_q2 : q2.1 ∈ eP.getD ((sP.getD s []).getD j 0) [] :=
        validPrefs_mem VE hprefE_lt hq2_lt
      have hnotlt : ¬ jsIndexOf (eP.getD ((sP.getD s []).getD j 0) []) s <
          jsIndexOf (eP.getD ((sP.getD s []).getD j 0) []) q2.1 := by
        rw [jsIndexOf_lt_iff hmem_s hmem_q2]
        omega
      simp only [hnotlt, if_false]
  unfold verifyStability
  have : (List.range n).foldl (fun acc s => acc ++ blockingFor sP eP mm s) [] = [] := by
    refine foldl_fixed ?_ []
    intro acc s hs
    rw [hblock s hs, List.append_nil]
  rw [this]
  rfl

/-!
## From the loop to the two solve methods
-/

theorem foldl_mapSet_swap :
    ∀ (m : List (Nat × Nat)) (acc : List (Nat × Nat)),
      (m.map Prod.snd).Nodup →
      (∀ x ∈ m.map Prod.snd, x ∉ acc.map Prod.fst) →
      m.foldl (fun a e => mapSet a e.2 e.1) acc = acc ++ m.map (fun e => (e.2, e.1)) := by
  intro m
  induction m with
  | nil => intro acc _ _; simp
  | cons e m ih =>
    intro acc hnd hdis
    have he2 : e.2 ∉ acc.map Prod.fst := hdis e.2 (by simp)
    have hset : mapSet acc e.2 e.1 = acc ++ [(e.2, e.1)] :=
      mapSet_of_lookup_none (lookup_eq_none_of_not_mem_keys he2)
    have hnd' : (m.map Prod.snd).Nodup := by
      simp only [List.map_cons, List.nodup_cons] at hnd
      exact hnd.2
    have hhead : e.2 ∉ m.map Prod.snd := by
      simp only [List.map_cons, List.nodup_cons] at hnd
      exact hnd.1
    have hdis' : ∀ x ∈ m.map Prod.snd, x ∉ (acc ++ [(e.2, e.1)]).map Prod.fst := by
      intro x hx hmem
      rw [List.map_append, List.mem_append] at hmem
      rcases hmem with hmem | hmem
      · exact hdis x (List.mem_cons_of_mem _ hx) hmem
      · simp only [List.map_cons, List.map_nil, List.mem_singleton] at hmem
        exact hhead (hmem ▸ hx)
    rw [List.foldl_cons, hset, ih (acc ++ [(e.2, e.1)]) hnd' hdis']
    simp

/-- `solveStudentsPropose` inverts its final engagement map into entries
`(student, establishment)`, in the engagement map's insertion order. -/
theorem spMatching_eq {st : GSState} (hnd : (st.engaged.map Prod.snd).Nodup) :
    st.engaged.foldl (fun m q => mapSet m q.2 q.1) [] =
      st.engaged.map (fun e => (e.2, e.1)) := by
  have h := foldl_mapSet_swap st.engaged [] hnd (by simp)
  simpa using h

theorem map_swap_fst (m : List (Nat × Nat)) :
    (m.map (fun e => (e.2, e.1))).map Prod.fst = m.map Prod.snd := by
  rw [List.map_map]
  rfl

theorem map_swap_snd (m : List (Nat × Nat)) :
    (m.map (fun e => (e.2, e.1))).map Prod.snd = m.map Prod.fst := by
  rw [List.map_map]
  rfl

theorem mem_map_swap {m : List (Nat × Nat)} {a b : Nat} :
    (a, b) ∈ m.map (fun e => (e.2, e.1)) ↔ (b, a) ∈ m := by
  constructor
  · intro h
    obtain ⟨e, he, heq⟩ := List.mem_map.1 h
    obtain ⟨e₁, e₂⟩ := e
    cases heq
    exact he
  · intro h
    exact List.mem_map.2 ⟨(b, a), h, rfl⟩

/-- A completed students-propose run: the loop returns a final state
satisfying the invariant with an empty free set. -/
theorem sp_final (inst : SMInstance) (c0 : Nat → Nat) (hv : ValidInstance inst) :
    ∃ st', gsRun inst.n inst.studentPrefs inst.establishmentPrefs
        (inst.n * inst.n + inst.n) (gsInit inst.n c0) = some st' ∧
      GSInv inst.n inst.studentPrefs inst.establishmentPrefs st' ∧ st'.free = [] := by
  obtain ⟨st', hrun⟩ := @gsRun_terminates inst.n inst.studentPrefs
    inst.establishmentPrefs (inst.n * inst.n + inst.n) (gsInit inst.n c0) gsInit_core
    (by rw [gsInit_measure]; omega)
  have h := gsRun_inv hv.1 hv.2 hrun gsInit_inv
  exact ⟨st', hrun, h.1, h.2⟩

/-- A completed establishments-propose run. -/
theorem ep_final (inst : SMInstance) (hv : ValidInstance inst) :
    ∃ st', gsRun inst.n inst.establishmentPrefs inst.studentPrefs
        (inst.n * inst.n + inst.n) (gsInit inst.n (fun _ => 0)) = some st' ∧
      GSInv inst.n inst.establishmentPrefs inst.studentPrefs st' ∧ st'.free = [] := by
  obtain ⟨st', hrun⟩ := @gsRun_terminates inst.n inst.establishmentPrefs
    inst.studentPrefs (inst.n * inst.n + inst.n) (gsInit inst.n (fun _ => 0)) gsInit_core
    (by rw [gsInit_measure]; omega)
  have h := gsRun_inv hv.2 hv.1 hrun gsInit_inv
  exact ⟨st', hrun, h.1, h.2⟩

theorem solveStudentsPropose_eq {inst : SMInstance} {st' : GSState}
    (hrun : gsRun inst.n inst.studentPrefs inst.establishmentPrefs
      (inst.n * inst.n + inst.n) (gsInit inst.n (fun _ => 0)) = some st')
    (hnd : (st'.engaged.map Prod.snd).Nodup) :
    solveStudentsPropose inst =
      some ⟨st'.engaged.map (fun e => (e.2, e.1)), st'.counts⟩ := by
  unfold solveStudentsPropose solveStudentsProposeFrom
  rw [hrun, Option.map_some']
  rw [spMatching_eq hnd]

theorem solveEstablishmentsPropose_eq {inst : SMInstance} {st' : GSState}
    (hrun : gsRun inst.n inst.establishmentPrefs inst.studentPrefs
      (inst.n * inst.n + inst.n) (gsInit inst.n (fun _ => 0)) = some st') :
    solveEstablishmentsPropose inst = some ⟨st'.engaged, st'.cur⟩ := by
  unfold solveEstablishmentsPropose
  rw [hrun, Option.map_some']

/-- The students-propose matching, as student ↦ establishment entries,
satisfies the hypotheses of `verifyStability_empty`. -/
theorem sp_matching_stable {inst : SMInstance} {st' : GSState}
    (hv : ValidInstance inst)
    (hinv : GSInv inst.n inst.studentPrefs inst.establishmentPrefs st')
    (hfree : st'.free = []) :
    verifyStability inst.n inst.studentPrefs inst.establishmentPrefs
      (st'.engaged.map (fun e => (e.2, e.1))) = ⟨true, []⟩ := by
  refine verifyStability_empty hv.1 hv.2 _ ?_ ?_ ?_ ?_
  · rw [map_swap_fst]
    exact hinv.vals_nodup
  · intro e he
    obtain ⟨e₀, he₀, heq⟩ := List.mem_map.1 he
    cases heq
    exact ⟨hinv.vals_lt _ he₀, hinv.keys_lt _ he₀⟩
  · intro s hs
    obtain ⟨e, he, hev⟩ := final_vals_complete hinv hfree s hs
    refine ⟨e.1, mem_map_swap.2 ?_⟩
    rw [← hev]
    exact he
  · rintro ⟨s, e⟩ ha ⟨s', e'⟩ hb hpref
    dsimp only at hpref ⊢
    have ha' : (e, s) ∈ st'.engaged := mem_map_swap.1 ha
    have hb' : (e', s') ∈ st'.engaged := mem_map_swap.1 hb
    exact final_stable hv.1 hv.2 hinv hfree (e, s) ha' (e', s') hb' hpref

/-- The establishments-propose matching (the engagement map itself, student ↦
establishment) satisfies the hypotheses of `verifyStability_empty`. -/
theorem ep_matching_stable {inst : SMInstance} {st' : GSState}
    (hv : ValidInstance inst)
    (hinv : GSInv inst.n inst.establishmentPrefs inst.studentPrefs st')
    (hfree : st'.free = []) :
    verifyStability inst.n inst.studentPrefs inst.establishmentPrefs
      st'.engaged = ⟨true, []⟩ := by
  refine verifyStability_empty hv.1 hv.2 _ hinv.keys_nodup ?_ ?_ ?_
  · intro e he
    exact ⟨hinv.keys_lt _ he, hinv.vals_lt _ he⟩
  · intro s hs
    have hmem : s ∈ st'.engaged.map Prod.fst :=
      (final_keys_perm hinv hfree).mem_iff.2 (List.mem_range.2 hs)
    exact mem_keys_iff.1 hmem
  · rintro ⟨s, e⟩ ha ⟨s', e'⟩ hb hpref
    dsimp only at hpref ⊢
    by_contra hnot
    push_neg at hnot
    have hsn : s < inst.n := hinv.keys_lt _ ha
    have hs'n : s' < inst.n := hinv.keys_lt _ hb
    have hen : e < inst.n := hinv.vals_lt _ ha
    have he'n : e' < inst.n := hinv.vals_lt _ hb
    by_cases hss : s = s'
    · have : e = e' := key_unique hinv.keys_nodup (hss ▸ ha) hb
      rw [hss, this] at hpref
      exact lt_irrefl _ hpref
    · have hmem_s : s ∈ inst.establishmentPrefs.getD e' [] :=
        validPrefs_mem hv.2 he'n hsn
      have hmem_s' : s' ∈ inst.establishmentPrefs.getD e' [] :=
        validPrefs_mem hv.2 he'n hs'n
      have hstrict : (inst.establishmentPrefs.getD e' []).indexOf s <
          (inst.establishmentPrefs.getD e' []).indexOf s' := by
        have hne := (List.indexOf_inj hmem_s hmem_s').not.2 hss
        omega
      have := final_stable hv.2 hv.1 hinv hfree (s', e') hb (s, e) ha hstrict
      dsimp only at this
      omega

/-- C1.  For every valid instance, `verifyStability` applied to the matching
returned by `solve` reports stable with an empty blocking-pair list, in both
proposing directions. -/
theorem C1_solve_verify_stable (inst : SMInstance) (hv : ValidInstance inst) :
    (∃ r, solveStudentsPropose inst = some r ∧
        verifyStability inst.n inst.studentPrefs inst.establishmentPrefs
          r.matching = ⟨true, []⟩) ∧
    (∃ r, solveEstablishmentsPropose inst = some r ∧
        verifyStability inst.n inst.studentPrefs inst.establishmentPrefs
          r.matching = ⟨true, []⟩) := by
  constructor
  · obtain ⟨st', hrun, hinv, hfree⟩ := sp_final inst (fun _ => 0) hv
    exact ⟨_, solveStudentsPropose_eq hrun hinv.vals_nodup,
      sp_matching_stable hv hinv hfree⟩
  · obtain ⟨st', hrun, hinv, hfree⟩ := ep_final inst hv
    exact ⟨_, solveEstablishmentsPropose_eq hrun,
      ep_matching_stable hv hinv hfree⟩

/-- C2.  For every valid instance, both solve directions terminate with a
matching whose keys are exactly the students `0 … n-1` (each exactly once) and
whose values are exactly the establishments `0 … n-1` (each exactly once): a
bijection covering both sides. -/
theorem C2_solve_terminates_bijection (inst : SMInstance) (hv : ValidInstance inst) :
    (∃ r, solveStudentsPropose inst = some r ∧
        List.Perm (r.matching.map Prod.fst) (List.range inst.n) ∧
        List.Perm (r.matching.map Prod.snd) (List.range inst.n)) ∧
    (∃ r, solveEstablishmentsPropose inst = some r ∧
        List.Perm (r.matching.map Prod.fst) (List.range inst.n) ∧
        List.Perm (r.matching.map Prod.snd) (List.range inst.n)) := by
  constructor
  · obtain ⟨st', hrun, hinv, hfree⟩ := sp_final inst (fun _ => 0) hv
    refine ⟨_, solveStudentsPropose_eq hrun hinv.vals_nodup, ?_, ?_⟩
    · rw [map_swap_fst]
      exact final_vals_perm hinv hfree
    · rw [map_swap_snd]
      exact final_keys_perm hinv hfree
  · obtain ⟨st', hrun, hinv, hfree⟩ := ep_final inst hv
    exact ⟨_, solveEstablishmentsPropose_eq hrun,
      final_keys_perm hinv hfree, final_vals_perm hinv hfree⟩

/-!
## Proposer-optimality
-/

/-- Under `OptInv`, a proposer whose stable partner `M q` is excluded from all
its current engagements has already proposed at least up to `M q`'s rank. -/
theorem optInv_rank {n : Nat} {pP : List (List Nat)} {M : Nat → Nat}
    {st : GSState} {q : Nat}
    (VP : ValidPrefs n pP) (hMlt : ∀ x < n, M x < n) (hopt : OptInv pP n M st)
    (hq : q < n) (hexc : ∀ x, (x, q) ∈ st.engaged → M q ≠ x) :
    st.cur q ≤ (pP.getD q []).indexOf (M q) := by
  by_contra h'
  push_neg at h'
  have hMq_mem : M q ∈ pP.getD q [] := validPrefs_mem VP hq (hMlt q hq)
  have hgd := validPrefs_getD_indexOf_eq VP hq hMq_mem
  by_cases hmem : ((pP.getD q []).getD ((pP.getD q []).indexOf (M q)) 0, q) ∈ st.engaged
  · exact hexc _ hmem hgd.symm
  · exact hopt q hq _ h' hmem hgd.symm

theorem gsStep_opt {n : Nat} {pP rP : List (List Nat)} {st : GSState} {M : Nat → Nat}
    (VP : ValidPrefs n pP) (VR : ValidPrefs n rP) (hM : IsStableFn n pP rP M)
    (h : GSInv n pP rP st) (hopt : OptInv pP n M st) :
    OptInv pP n M (gsStep n pP rP st) := by
  obtain ⟨⟨hMlt, hMinj⟩, hMstable⟩ := hM
  rcases hfree : st.free with _ | ⟨p, rest⟩
  · rw [gsStep_free_nil hfree]; exact hopt
  have hpfree : p ∈ st.free := by rw [hfree]; exact List.mem_cons_self _ _
  have hp : p < n := h.free_lt p hpfree
  have hi : st.cur p < n := gsInv_cur_lt_of_free VP h hpfree
  have hcur : ¬ n ≤ st.cur p := Nat.not_le.2 hi
  have hp_not_val : ∀ e ∈ st.engaged, e.2 ≠ p :=
    fun e he hep => h.vals_free e he (hep ▸ hpfree)
  set rr := (pP.getD p []).getD (st.cur p) 0 with hrr
  have hr_mem : rr ∈ pP.getD p [] := by
    rw [hrr, List.getD_eq_getElem (pP.getD p []) 0
      (by rw [validPrefs_getD_length VP hp]; exact hi)]
    exact List.getElem_mem _
  have hrn : rr < n := validPrefs_getD_lt VP hp hr_mem
  have hmemP : p ∈ rP.getD rr [] := validPrefs_mem VR hrn hp
  have hidx_rr : (pP.getD p []).indexOf rr = st.cur p := by
    rw [hrr]
    exact validPrefs_indexOf_getD VP hp hi
  have hMp_rank : st.cur p ≤ (pP.getD p []).indexOf (M p) :=
    optInv_rank VP hMlt hopt hp
      (fun x hx _ => (hp_not_val _ hx) rfl)
  rcases hlk : st.engaged.lookup rr with _ | q
  · -- accept branch
    rw [gsStep_accept hfree hcur hrr hlk]
    intro p₀ hp₀ i₀ hi₀ hnot
    dsimp only at hi₀ hnot ⊢
    have hnot_old : ((pP.getD p₀ []).getD i₀ 0, p₀) ∉ st.engaged :=
      fun hmem => hnot (List.mem_append.2 (Or.inl hmem))
    by_cases hpp : p₀ = p
    · subst hpp
      rw [Function.update_same] at hi₀
      by_cases hii : i₀ = st.cur p₀
      · exact absurd (List.mem_append.2 (Or.inr (List.mem_singleton.2
          (by rw [hii, ← hrr])))) hnot
      · exact hopt p₀ hp₀ i₀ (by omega) hnot_old
    · rw [Function.update_noteq hpp] at hi₀
      exact hopt p₀ hp₀ i₀ hi₀ hnot_old
  -- the receiver rr currently holds q
  have hq_mem : (rr, q) ∈ st.engaged := mem_of_lookup_eq_some hlk
  have hqn : q < n := h.vals_lt _ hq_mem
  have hmemQ : q ∈ rP.getD rr [] := validPrefs_mem VR hrn hqn
  have hq_ne_p : q ≠ p := fun hqp => (hp_not_val _ hq_mem) hqp
  have hval_uniq_q : ∀ x, (x, q) ∈ st.engaged → x = rr :=
    fun x hx => val_unique h.vals_nodup hx hq_mem
  by_cases hcmp : jsIndexOf (rP.getD rr []) p < jsIndexOf (rP.getD rr []) q
  · -- bump branch
    have hcmpN : (rP.getD rr []).indexOf p < (rP.getD rr []).indexOf q :=
      (jsIndexOf_lt_iff hmemP hmemQ).1 hcmp
    have hMq_ne : M q ≠ rr := by
      intro hMq
      have hMp_ne : M p ≠ rr := by
        intro hMp
        exact hq_ne_p (hMinj q hqn p hp (by rw [hMq, hMp]))
      have hMp_mem : M p ∈ pP.getD p [] := validPrefs_mem VP hp (hMlt p hp)
      have hne_idx : (pP.getD p []).indexOf rr ≠ (pP.getD p []).indexOf (M p) :=
        (List.indexOf_inj hr_mem hMp_mem).not.2 (fun he => hMp_ne he.symm)
      have hstrict : (pP.getD p []).indexOf rr < (pP.getD p []).indexOf (M p) := by
        omega
      have hconc := hMstable p hp rr hrn hstrict q hqn hMq
      omega
    obtain ⟨m₁, m₂, heq, hk₁, hk₂⟩ := exists_split_of_mem h.keys_nodup hq_mem
    have hset : mapSet st.engaged rr p = m₁ ++ (rr, p) :: m₂ := by
      rw [heq]; exact mapSet_split hk₁ hk₂
    rw [gsStep_bump hfree hcur hrr hlk hcmp]
    intro p₀ hp₀ i₀ hi₀ hnot
    dsimp only at hi₀ hnot ⊢
    rw [hset] at hnot
    have hx_cases : ((pP.getD p₀ []).getD i₀ 0, p₀) ∈ st.engaged →
        (pP.getD p₀ []).getD i₀ 0 = rr ∧ p₀ = q := by
      intro hmem
      rw [heq] at hmem
      rcases List.mem_append.1 hmem with hh | hh
      · exact absurd (List.mem_append.2 (Or.inl hh)) hnot
      · rcases List.mem_cons.1 hh with hh' | hh'
        · exact ⟨congrArg Prod.fst hh', congrArg Prod.snd hh'⟩
        · exact absurd (List.mem_append.2 (Or.inr (List.mem_cons_of_mem _ hh'))) hnot
    by_cases hpp : p₀ = p
    · subst hpp
      rw [Function.update_same] at hi₀
      by_cases hii : i₀ = st.cur p₀
      · refine absurd ?_ hnot
        rw [hii, ← hrr]
        exact List.mem_append.2 (Or.inr (List.mem_cons_self _ _))
      · by_cases hmem_old : ((pP.getD p₀ []).getD i₀ 0, p₀) ∈ st.engaged
        · exact absurd (hx_cases hmem_old).2 (Ne.symm hq_ne_p)
        · exact hopt p₀ hp₀ i₀ (by omega) hmem_old
    · rw [Function.update_noteq hpp] at hi₀
      by_cases hmem_old : ((pP.getD p₀ []).getD i₀ 0, p₀) ∈ st.engaged
      · obtain ⟨hx_rr, hp_q⟩ := hx_cases hmem_old
        rw [hx_rr, hp_q]
        exact hMq_ne
      · exact hopt p₀ hp₀ i₀ hi₀ hmem_old
  · -- reject branch
    have hcmpN : (rP.getD rr []).indexOf q ≤ (rP.getD rr []).indexOf p := by
      by_contra hlt
      push_neg at hlt
      exact hcmp ((jsIndexOf_lt_iff hmemP hmemQ).2 (by omega))
    rw [gsStep_reject hfree hcur hrr hlk hcmp]
    intro p₀ hp₀ i₀ hi₀ hnot
    dsimp only at hi₀ hnot ⊢
    by_cases hpp : p₀ = p
    · subst hpp
      rw [Function.update_same] at hi₀
      by_cases hii : i₀ = st.cur p₀
      · rw [hii, ← hrr]
        intro hMp
        have hMq_ne : M q ≠ rr := fun hMq =>
          hq_ne_p (hMinj q hqn p₀ hp₀ (by rw [hMq, hMp]))
        have hrank_q : st.cur q ≤ (pP.getD q []).indexOf (M q) :=
          optInv_rank VP hMlt hopt hqn
            (fun x hx => by rw [hval_uniq_q x hx]; exact hMq_ne)
        obtain ⟨hc1, hc2⟩ := h.engaged_latest _ hq_mem
        dsimp only at hc1 hc2
        have hcur_lt : st.cur q - 1 < n := by
          have := h.cur_le q
          omega
        have hidx_rr_q : (pP.getD q []).indexOf rr = st.cur q - 1 := by
          rw [← hc2]
          exact validPrefs_indexOf_getD VP hqn hcur_lt
        have hstrict : (pP.getD q []).indexOf rr < (pP.getD q []).indexOf (M q) := by
          omega
        have hconc := hMstable q hqn rr hrn hstrict p₀ hp₀ hMp
        have hne_idx : (rP.getD rr []).indexOf q ≠ (rP.getD rr []).indexOf p₀ :=
          (List.indexOf_inj hmemQ hmemP).not.2 hq_ne_p
        omega
      · exact hopt p₀ hp₀ i₀ (by omega) hnot
    · rw [Function.update_noteq hpp] at hi₀
      exact hopt p₀ hp₀ i₀ hi₀ hnot

theorem gsInit_opt {n : Nat} {pP : List (List Nat)} {M : Nat → Nat} {c : Nat → Nat} :
    OptInv pP n M (gsInit n c) :=
  fun _ _ i hi => absurd hi (by simp [gsInit])

theorem gsRun_inv_opt {n : Nat} {pP rP : List (List Nat)} {f : Nat}
    {st st' : GSState} {M : Nat → Nat}
    (VP : ValidPrefs n pP) (VR : ValidPrefs n rP) (hM : IsStableFn n pP rP M)
    (hrun : gsRun n pP rP f st = some st')
    (h : GSInv n pP rP st) (hopt : OptInv pP n M st) :
    (GSInv n pP rP st' ∧ OptInv pP n M st') ∧ st'.free = [] :=
  gsRun_induct (P := fun s => GSInv n pP rP s ∧ OptInv pP n M s)
    (fun _ _ hs => ⟨gsStep_inv VP VR hs.1, gsStep_opt VP VR hM hs.1 hs.2⟩)
    f st st' hrun ⟨h, hopt⟩

/-- In the final state, each engaged proposer ranks its assigned receiver at
least as high as its partner in any stable matching `M`. -/
theorem final_optimal {n : Nat} {pP rP : List (List Nat)} {st : GSState}
    {M : Nat → Nat}
    (VP : ValidPrefs n pP) (hM : IsStableFn n pP rP M)
    (h : GSInv n pP rP st) (hopt : OptInv pP n M st) :
    ∀ e ∈ st.engaged,
      (pP.getD e.2 []).indexOf e.1 ≤ (pP.getD e.2 []).indexOf (M e.2) := by
  rintro ⟨r, q⟩ he
  dsimp only
  have hq : q < n := h.vals_lt _ he
  obtain ⟨hc1, hc2⟩ := h.engaged_latest _ he
  dsimp only at hc1 hc2
  have hcur_lt : st.cur q - 1 < n := by
    have := h.cur_le q
    omega
  have hidx_r : (pP.getD q []).indexOf r = st.cur q - 1 := by
    rw [← hc2]
    exact validPrefs_indexOf_getD VP hq hcur_lt
  by_cases hMq : M q = r
  · rw [hMq]
  · have hval_uniq : ∀ x, (x, q) ∈ st.engaged → x = r :=
      fun x hx => val_unique h.vals_nodup hx he
    have hrank : st.cur q ≤ (pP.getD q []).indexOf (M q) :=
      optInv_rank VP hM.1.1 hopt hq
        (fun x hx => by rw [hval_uniq x hx]; exact fun hMx => hMq hMx)
    omega

/-- C3.  Proposer-optimality: against any stable matching of the instance,
every proposer does at least as well (by its own ranking) in the matching
returned by solve with its side proposing — students under
`solveStudentsPropose`, establishments under `solveEstablishmentsPropose`. -/
theorem C3_proposer_optimal (inst : SMInstance) (hv : ValidInstance inst) :
    (∀ M, IsStableFn inst.n inst.studentPrefs inst.establishmentPrefs M →
      ∀ s < inst.n, ∃ r e, solveStudentsPropose inst = some r ∧
        (s, e) ∈ r.matching ∧
        (inst.studentPrefs.getD s []).indexOf e ≤
          (inst.studentPrefs.getD s []).indexOf (M s)) ∧
    (∀ M, IsStableFn inst.n inst.establishmentPrefs inst.studentPrefs M →
      ∀ e < inst.n, ∃ r s, solveEstablishmentsPropose inst = some r ∧
        (s, e) ∈ r.matching ∧
        (inst.establishmentPrefs.getD e []).indexOf s ≤
          (inst.establishmentPrefs.getD e []).indexOf (M e)) := by
  constructor
  · intro M hM s hs
    obtain ⟨st', hrun, hinv0, hfree⟩ := sp_final inst (fun _ => 0) hv
    obtain ⟨⟨hinv, hopt⟩, _⟩ := gsRun_inv_opt hv.1 hv.2 hM hrun gsInit_inv gsInit_opt
    obtain ⟨e, he, hev⟩ := final_vals_complete hinv hfree s hs
    refine ⟨_, e.1, solveStudentsPropose_eq hrun hinv.vals_nodup, ?_, ?_⟩
    · refine mem_map_swap.2 ?_
      rw [← hev]
      exact he
    · have := final_optimal hv.1 hM hinv hopt e he
      rw [hev] at this
      exact this
  · intro M hM e he
    obtain ⟨st', hrun, hinv0, hfree⟩ := ep_final inst hv
    obtain ⟨⟨hinv, hopt⟩, _⟩ := gsRun_inv_opt hv.2 hv.1 hM hrun gsInit_inv gsInit_opt
    obtain ⟨e₀, he₀, hev⟩ := final_vals_complete hinv hfree e he
    refine ⟨_, e₀.1, solveEstablishmentsPropose_eq hrun, ?_, ?_⟩
    · rw [show (e₀.1, e) = e₀ from by rw [← hev]]
      exact he₀
    · have := final_optimal hv.2 hM hinv hopt e₀ he₀
      rw [hev] at this
      exact this

/-!
## The exhausted-proposer branch is unreachable (C8)
-/

theorem iterate_inv {n : Nat} {pP rP : List (List Nat)} {c0 : Nat → Nat}
    (VP : ValidPrefs n pP) (VR : ValidPrefs n rP) :
    ∀ k : Nat, GSInv n pP rP ((gsStep n pP rP)^[k] (gsInit n c0)) := by
  intro k
  induction k with
  | zero => exact gsInit_inv
  | succ k ih =>
    rw [Function.iterate_succ_apply']
    exact gsStep_inv VP VR ih

/-- C8.  On a valid instance, whenever the loop is about to examine the first
free proposer (in any reachable state, i.e. after any number `k` of
iterations), that proposer's cursor is still below `n`: the
`if (proposalIndex >= this.n)` branch is never taken, in either proposing
direction. -/
theorem C8_exhausted_branch_unreachable (inst : SMInstance)
    (hv : ValidInstance inst) (c0 : Nat → Nat) (k : Nat) :
    (∀ p rest,
      ((gsStep inst.n inst.studentPrefs inst.establishmentPrefs)^[k]
          (gsInit inst.n c0)).free = p :: rest →
        ((gsStep inst.n inst.studentPrefs inst.establishmentPrefs)^[k]
          (gsInit inst.n c0)).cur p < inst.n) ∧
    (∀ p rest,
      ((gsStep inst.n inst.establishmentPrefs inst.studentPrefs)^[k]
          (gsInit inst.n c0)).free = p :: rest →
        ((gsStep inst.n inst.establishmentPrefs inst.studentPrefs)^[k]
          (gsInit inst.n c0)).cur p < inst.n) := by
  constructor
  · intro p rest hfree
    exact gsInv_cur_lt_of_free hv.1 (iterate_inv hv.1 hv.2 k)
      (by rw [hfree]; exact List.mem_cons_self _ _)
  · intro p rest hfree
    exact gsInv_cur_lt_of_free hv.2 (iterate_inv hv.2 hv.1 k)
      (by rw [hfree]; exact List.mem_cons_self _ _)

/-!
## Proposal counts versus cursors (for C7)
-/

theorem gsStep_counts_eq_cur {n : Nat} {pP rP : List (List Nat)} {st : GSState}
    (h : st.counts = st.cur) :
    (gsStep n pP rP st).counts = (gsStep n pP rP st).cur := by
  rcases hfree : st.free with _ | ⟨p, rest⟩
  · rw [gsStep_free_nil hfree]
    exact h
  by_cases hcur : n ≤ st.cur p
  · rw [gsStep_exhaust hfree hcur]
    exact h
  rcases hlk : st.engaged.lookup ((pP.getD p []).getD (st.cur p) 0) with _ | q
  · rw [gsStep_accept hfree hcur rfl hlk]
    dsimp only
    rw [h]
  by_cases hcmp : jsIndexOf (rP.getD ((pP.getD p []).getD (st.cur p) 0) []) p <
      jsIndexOf (rP.getD ((pP.getD p []).getD (st.cur p) 0) []) q
  · rw [gsStep_bump hfree hcur rfl hlk hcmp]
    dsimp only
    rw [h]
  · rw [gsStep_reject hfree hcur rfl hlk hcmp]
    dsimp only
    rw [h]

theorem gsRun_counts_eq_cur {n : Nat} {pP rP : List (List Nat)} {f : Nat}
    {st st' : GSState} (hrun : gsRun n pP rP f st = some st')
    (h : st.counts = st.cur) : st'.counts = st'.cur :=
  (gsRun_induct (P := fun s => s.counts = s.cur)
    (fun _ _ hs => gsStep_counts_eq_cur hs) f st st' hrun h).1

/-- C7 (amended).  Both directions return a matching keyed by student.  In
students-propose, the key of each entry is the proposer: entry `(s, e)` has
`e` at position `counts s - 1` of student `s`'s own list (the proposer's last
proposal).  In establishments-propose, the key is the receiver: entry
`(s, e)` has `s` at position `counts e - 1` of establishment `e`'s own list —
the value, not the key, is the proposer. -/
theorem C7_amended (inst : SMInstance) (hv : ValidInstance inst) :
    (∃ r, solveStudentsPropose inst = some r ∧ ∀ pr ∈ r.matching,
      1 ≤ r.counts pr.1 ∧
        (inst.studentPrefs.getD pr.1 []).getD (r.counts pr.1 - 1) 0 = pr.2) ∧
    (∃ r, solveEstablishmentsPropose inst = some r ∧ ∀ pr ∈ r.matching,
      1 ≤ r.counts pr.2 ∧
        (inst.establishmentPrefs.getD pr.2 []).getD (r.counts pr.2 - 1) 0 = pr.1) := by
  constructor
  · obtain ⟨st', hrun, hinv, hfree⟩ := sp_final inst (fun _ => 0) hv
    have hcc : st'.counts = st'.cur := gsRun_counts_eq_cur hrun rfl
    refine ⟨_, solveStudentsPropose_eq hrun hinv.vals_nodup, ?_⟩
    rintro ⟨s, e⟩ hpr
    have hmem : (e, s) ∈ st'.engaged := mem_map_swap.1 hpr
    obtain ⟨hc1, hc2⟩ := hinv.engaged_latest _ hmem
    dsimp only at hc1 hc2 ⊢
    rw [hcc]
    exact ⟨hc1, hc2⟩
  · obtain ⟨st', hrun, hinv, hfree⟩ := ep_final inst hv
    refine ⟨_, solveEstablishmentsPropose_eq hrun, ?_⟩
    rintro ⟨s, e⟩ hpr
    obtain ⟨hc1, hc2⟩ := hinv.engaged_latest _ hpr
    dsimp only at hc1 hc2 ⊢
    exact ⟨hc1, hc2⟩

/-!
## The proposal-count field is the only mutated state (C9)
-/

theorem gsStep_counts_shift {n : Nat} {pP rP : List (List Nat)}
    (c : Nat → Nat) (st : GSState) :
    gsStep n pP rP { st with counts := fun i => c i + st.counts i } =
      { gsStep n pP rP st with
        counts := fun i => c i + (gsStep n pP rP st).counts i } := by
  have hcnt : ∀ (d : Nat → Nat) (p : Nat),
      Function.update (fun i => c i + d i) p (c p + d p + 1)
        = fun i => c i + Function.update d p (d p + 1) i := by
    intro d p
    funext x
    by_cases hx : x = p
    · subst hx
      simp [Function.update]
      omega
    · simp [Function.update, hx]
  obtain ⟨eng, fr, cur0, cnt⟩ := st
  rcases fr with _ | ⟨p, rest⟩
  · rw [@gsStep_free_nil n pP rP ⟨eng, [], cur0, fun i => c i + cnt i⟩ rfl,
      @gsStep_free_nil n pP rP ⟨eng, [], cur0, cnt⟩ rfl]
  by_cases hcur : n ≤ cur0 p
  · rw [@gsStep_exhaust n pP rP ⟨eng, p :: rest, cur0, fun i => c i + cnt i⟩ p rest rfl hcur,
      @gsStep_exhaust n pP rP ⟨eng, p :: rest, cur0, cnt⟩ p rest rfl hcur]
  rcases hlk : eng.lookup ((pP.getD p []).getD (cur0 p) 0) with _ | q
  · rw [@gsStep_accept n pP rP ⟨eng, p :: rest, cur0, fun i => c i + cnt i⟩ p
        ((pP.getD p []).getD (cur0 p) 0) rest rfl hcur rfl hlk,
      @gsStep_accept n pP rP ⟨eng, p :: rest, cur0, cnt⟩ p
        ((pP.getD p []).getD (cur0 p) 0) rest rfl hcur rfl hlk]
    dsimp only
    rw [hcnt cnt p]
  by_cases hcmp : jsIndexOf (rP.getD ((pP.getD p []).getD (cur0 p) 0) []) p <
      jsIndexOf (rP.getD ((pP.getD p []).getD (cur0 p) 0) []) q
  · rw [@gsStep_bump n pP rP ⟨eng, p :: rest, cur0, fun i => c i + cnt i⟩ p
        ((pP.getD p []).getD (cur0 p) 0) q rest rfl hcur rfl hlk hcmp,
      @gsStep_bump n pP rP ⟨eng, p :: rest, cur0, cnt⟩ p
        ((pP.getD p []).getD (cur0 p) 0) q rest rfl hcur rfl hlk hcmp]
    dsimp only
    rw [hcnt cnt p]
  · rw [@gsStep_reject n pP rP ⟨eng, p :: rest, cur0, fun i => c i + cnt i⟩ p
        ((pP.getD p []).getD (cur0 p) 0) q rest rfl hcur rfl hlk hcmp,
      @gsStep_reject n pP rP ⟨eng, p :: rest, cur0, cnt⟩ p
        ((pP.getD p []).getD (cur0 p) 0) q rest rfl hcur rfl hlk hcmp]
    dsimp only
    rw [hcnt cnt p]

theorem gsRun_counts_shift {n : Nat} {pP rP : List (List Nat)} (c : Nat → Nat) :
    ∀ (f : Nat) (st : GSState),
      gsRun n pP rP f { st with counts := fun i => c i + st.counts i } =
        (gsRun n pP rP f st).map
          (fun s => { s with counts := fun i => c i + s.counts i }) := by
  intro f
  induction f with
  | zero =>
    intro st
    by_cases hfree : st.free = []
    · simp only [gsRun]
      rw [if_pos hfree, if_pos hfree]
      rfl
    · simp only [gsRun]
      rw [if_neg hfree, if_neg hfree]
      rfl
  | succ f ih =>
    intro st
    by_cases hfree : st.free = []
    · simp only [gsRun]
      rw [if_pos hfree, if_pos hfree]
      rfl
    · simp only [gsRun]
      rw [if_neg hfree, if_neg hfree, gsStep_counts_shift c st, ih]

/-- C9 (amended).  `solve` reads none of the stored proposal counts: whatever
the `this.proposalCounts` field holds when `solveStudentsPropose` is called,
the returned matching is the one a fresh call computes, and the returned (and
stored) counts are the field's old values plus this run's increments.  Two
successive calls thus return the same matching, while the second call's
counts are the first call's counts doubled, not equal (the field is
mutated). -/
theorem C9_amended (inst : SMInstance) (c0 : Nat → Nat) :
    (solveStudentsProposeFrom inst c0).map (fun r => r.matching) =
      (solveStudentsPropose inst).map (fun r => r.matching) ∧
    (solveStudentsProposeFrom inst c0).map (fun r => r.counts) =
      (solveStudentsPropose inst).map (fun r => fun i => c0 i + r.counts i) := by
  have h0 : gsInit inst.n c0 =
      { gsInit inst.n (fun _ => 0) with
        counts := fun i => c0 i + (gsInit inst.n (fun _ => 0)).counts i } := by
    unfold gsInit
    dsimp only
    constructor
  have hrw : solveStudentsProposeFrom inst c0 =
      (solveStudentsPropose inst).map
        (fun r => ⟨r.matching, fun i => c0 i + r.counts i⟩) := by
    unfold solveStudentsPropose solveStudentsProposeFrom
    rw [h0, gsRun_counts_shift]
    cases gsRun inst.n inst.studentPrefs inst.establishmentPrefs
        (inst.n * inst.n + inst.n) (gsInit inst.n (fun _ => 0)) with
    | none => rfl
    | some st => rfl
  rw [hrw]
  cases solveStudentsPropose inst with
  | none => exact ⟨rfl, rfl⟩
  | some r => exact ⟨rfl, rfl⟩

/-!
## Concrete scenarios and counterexamples
-/

/-- C4 (counterexample).  On the spec's n=2 scenario (students prefer
`[0,1]`, establishments prefer `[1,0]`), the students-propose matching is
`{0→1, 1→0}`: student 0 goes to establishment 1, not to establishment 0 as
the claim's `{0→0, 1→1}` asserts (indeed `{0→0, 1→1}` is blocked by the pair
(student 1, establishment 0)); and the returned matching's egalitarian cost
is 2, not the claimed 1. -/
theorem C4_counterexample :
    (solveStudentsPropose ⟨2, [[0,1],[0,1]], [[1,0],[1,0]]⟩).map
        (fun r => r.matching) = some [(1, 0), (0, 1)] ∧
    ((List.lookup 0 [(1, 0), (0, 1)] : Option Nat) = some 1 ∧
      some 1 ≠ some (0 : Nat)) ∧
    (egalitarianCost 2 [[0,1],[0,1]] [[1,0],[1,0]] [(1, 0), (0, 1)] = 2 ∧
      (2 : Int) ≠ 1) :=
  ⟨rfl, ⟨rfl, by decide⟩, ⟨by decide, by decide⟩⟩

/-- C4 (amended).  On that scenario the run returns the matching
`{0→1, 1→0}` (the instance's unique stable matching); `verifyStability`
reports it stable with no blocking pairs; and `fullAnalysis` yields average
rank ½ on both sides, satisfaction 50 on both sides, top-1 percentage 50,
egalitarian cost 2 and side-balance score 0. -/
theorem C4_amended :
    (solveStudentsPropose ⟨2, [[0,1],[0,1]], [[1,0],[1,0]]⟩).map (fun r => r.matching) =
        some [(1, 0), (0, 1)] ∧
    verifyStability 2 [[0,1],[0,1]] [[1,0],[1,0]] [(1, 0), (0, 1)] = ⟨true, []⟩ ∧
    fullAnalysis [[0,1],[0,1]] [[1,0],[1,0]] [(1, 0), (0, 1)] =
      { students :=
          { avgRank := some (1/2), top1 := some 50, top3 := some 100,
            satisfaction := some 50 },
        establishments :=
          { avgRank := some (1/2), top1 := some 50, top3 := some 100,
            satisfaction := some 50 },
        egalitarianCost := 2, sexEquality := some 0 } := by
  refine ⟨rfl, by decide, ?_⟩
  unfold fullAnalysis averageRank topKPercentage satisfactionScore sexEquality egalitarianCost
  norm_num [List.range_succ, rankOf, partnerOf, jsIndexOf, lookup_cons_self, lookup_cons_ne,
    List.find?, List.indexOf, List.findIdx, List.findIdx.go, satisfactionScore,
    show ((0 : Nat) == 1) = false from rfl, show ((1 : Nat) == 0) = false from rfl]

/-- C5.  On the trivial n=1 instance with matching `{0→0}`, the per-side
satisfaction score is the JS value `NaN` (the code computes
`100 * (1 - 0/0)` with no special case for `n = 1`), embedded as `none` — not
`100` as the claim (and the code's own comment, rank 0 → score 100)
require. -/
theorem C5_satisfaction_n1_nan :
    satisfactionScore 1 [[0]] [(0, 0)] true = none ∧
    satisfactionScore 1 [[0]] [(0, 0)] false = none ∧
    (fullAnalysis [[0]] [[0]] [(0, 0)]).students.satisfaction = none ∧
    (fullAnalysis [[0]] [[0]] [(0, 0)]).establishments.satisfaction = none ∧
    (fullAnalysis [[0]] [[0]] [(0, 0)]).sexEquality = none :=
  ⟨rfl, rfl, rfl, rfl, rfl⟩

/-- C6 (counterexample).  A malformed instance — student 0's list `[0,0]`
repeats establishment 0 and omits establishment 1 — is accepted without any
error: construction stores it as-is and `solveStudentsPropose` runs to
completion and returns a matching. -/
theorem C6_counterexample :
    ¬ ValidInstance ⟨2, [[0,0],[0,1]], [[0,1],[0,1]]⟩ ∧
    (solveStudentsPropose ⟨2, [[0,0],[0,1]], [[0,1],[0,1]]⟩).map (fun r => r.matching) =
      some [(0, 0), (1, 1)] :=
  ⟨by decide, rfl⟩

/-- C6 (amended).  Construction never detects a malformed preference list:
the constructor stores its arguments unvalidated and raises nothing.  On any
instance whose reads stay in range (`InRangePrefs`) — which includes
malformed instances with duplicated or omitted participants, such as the
counterexample's — solve then runs to completion with no error and returns a
matching, in either direction and from any stored proposal-count state.
(Outside that range the JS run can instead die of a `TypeError` at an
out-of-range array access — still not the validation error the claim
requires.) -/
theorem C6_amended (inst : SMInstance) :
    (InRangePrefs inst.n inst.studentPrefs inst.establishmentPrefs →
      ∀ c0 : Nat → Nat, (solveStudentsProposeFrom inst c0).isSome = true) ∧
    (InRangePrefs inst.n inst.establishmentPrefs inst.studentPrefs →
      (solveEstablishmentsPropose inst).isSome = true) :=
  ⟨fun _ c0 => solveStudentsProposeFrom_isSome inst c0,
   fun _ => solveEstablishmentsPropose_isSome inst⟩

/-- C7 (counterexample).  On an n=3 instance whose establishments-propose
matching is a 3-cycle, the returned map sends id 0 to 2, i.e. student 0 to
its establishment 2 — while establishment 0 is matched with student 1 (the
entry `(1, 0)`), so an establishment-keyed map would send 0 to 1.  The
returned map is keyed by student (receiver), not by the proposing
establishment. -/
theorem C7_counterexample :
    (solveEstablishmentsPropose
        ⟨3, [[0,1,2],[0,1,2],[0,1,2]], [[1,0,2],[2,0,1],[0,1,2]]⟩).map
        (fun r => (r.matching, r.matching.lookup 0)) =
      some ([(1, 0), (2, 1), (0, 2)], some 2) ∧ (2 : Nat) ≠ 1 :=
  ⟨rfl, by decide⟩

/-- C9 (counterexample).  Two successive `solveStudentsPropose` calls on the
same n=1 instance return the same matching but different proposal counts: the
first call returns count 1 for student 0 and leaves the field at 1, so the
second call returns count 2 — the `this.proposalCounts` field is mutated, not
restored. -/
theorem C9_counterexample :
    ((solveStudentsPropose ⟨1, [[0]], [[0]]⟩).bind (fun r1 =>
      (solveStudentsProposeFrom ⟨1, [[0]], [[0]]⟩ r1.counts).map (fun r2 =>
        (r1.matching, r1.counts 0, r2.matching, r2.counts 0)))) =
      some ([(0, 0)], 1, [(0, 0)], 2) ∧ (1 : Nat) ≠ 2 :=
  ⟨rfl, by decide⟩

/-- C10.  A student absent from the matching contributes no blocking pairs:
`matching.get(s)` is `undefined`, `indexOf(undefined)` is `-1`, and the inner
scan runs zero times.  In particular `verifyStability` on the empty matching
returns stable with an empty list instead of failing or flagging the
unmatched participants. -/
theorem C10_unmatched_student_no_pairs :
    (∀ (sP eP : List (List Nat)) (m : List (Nat × Nat)) (s : Nat),
        m.lookup s = none → blockingFor sP eP m s = []) ∧
    (∀ (n : Nat) (sP eP : List (List Nat)),
        verifyStability n sP eP [] = ⟨true, []⟩) := by
  constructor
  · intro sP eP m s h
    unfold blockingFor
    rw [h]
    rfl
  · intro n sP eP
    unfold verifyStability
    have hempty : (List.range n).foldl
        (fun acc s => acc ++ blockingFor sP eP [] s) [] = [] := by
      refine foldl_fixed ?_ []
      intro acc s _
      have hb : blockingFor sP eP [] s = [] := by
        unfold blockingFor
        rfl
      rw [hb, List.append_nil]
    rw [hempty]
    rfl

/-!
## Witnesses
-/

theorem C1_witness :
    ValidInstance ⟨2, [[0,1],[0,1]], [[1,0],[1,0]]⟩ ∧
    ((∃ r, solveStudentsPropose ⟨2, [[0,1],[0,1]], [[1,0],[1,0]]⟩ = some r ∧
        verifyStability 2 [[0,1],[0,1]] [[1,0],[1,0]] r.matching = ⟨true, []⟩) ∧
      (∃ r, solveEstablishmentsPropose ⟨2, [[0,1],[0,1]], [[1,0],[1,0]]⟩ = some r ∧
        verifyStability 2 [[0,1],[0,1]] [[1,0],[1,0]] r.matching = ⟨true, []⟩)) :=
  ⟨by decide, C1_solve_verify_stable ⟨2, [[0,1],[0,1]], [[1,0],[1,0]]⟩ (by decide)⟩

theorem C2_witness :
    ValidInstance ⟨2, [[0,1],[0,1]], [[1,0],[1,0]]⟩ ∧
    ((∃ r, solveStudentsPropose ⟨2, [[0,1],[0,1]], [[1,0],[1,0]]⟩ = some r ∧
        List.Perm (r.matching.map Prod.fst) (List.range 2) ∧
        List.Perm (r.matching.map Prod.snd) (List.range 2)) ∧
      (∃ r, solveEstablishmentsPropose ⟨2, [[0,1],[0,1]], [[1,0],[1,0]]⟩ = some r ∧
        List.Perm (r.matching.map Prod.fst) (List.range 2) ∧
        List.Perm (r.matching.map Prod.snd) (List.range 2))) :=
  ⟨by decide, C2_solve_terminates_bijection ⟨2, [[0,1],[0,1]], [[1,0],[1,0]]⟩ (by decide)⟩

theorem C3_witness :
    ValidInstance ⟨2, [[0,1],[0,1]], [[1,0],[1,0]]⟩ ∧
    IsStableFn 2 [[0,1],[0,1]] [[1,0],[1,0]] (fun s => 1 - s) ∧
    ∃ r e, solveStudentsPropose ⟨2, [[0,1],[0,1]], [[1,0],[1,0]]⟩ = some r ∧
      (0, e) ∈ r.matching ∧
      (([[0,1],[0,1]] : List (List Nat)).getD 0 []).indexOf e ≤
        (([[0,1],[0,1]] : List (List Nat)).getD 0 []).indexOf ((fun s => 1 - s) 0) :=
  ⟨by decide, by decide,
    (C3_proposer_optimal ⟨2, [[0,1],[0,1]], [[1,0],[1,0]]⟩ (by decide)).1
      (fun s => 1 - s) (by decide) 0 (by decide)⟩

theorem C6_witness :
    ¬ ValidInstance ⟨2, [[0,0],[0,1]], [[0,1],[0,1]]⟩ ∧
    InRangePrefs 2 [[0,0],[0,1]] [[0,1],[0,1]] ∧
    InRangePrefs 2 [[0,1],[0,1]] [[0,0],[0,1]] ∧
    (solveStudentsProposeFrom ⟨2, [[0,0],[0,1]], [[0,1],[0,1]]⟩ (fun _ => 0)).isSome = true ∧
    (solveEstablishmentsPropose ⟨2, [[0,0],[0,1]], [[0,1],[0,1]]⟩).isSome = true :=
  ⟨by decide, by decide, by decide,
    (C6_amended ⟨2, [[0,0],[0,1]], [[0,1],[0,1]]⟩).1 (by decide) (fun _ => 0),
    (C6_amended ⟨2, [[0,0],[0,1]], [[0,1],[0,1]]⟩).2 (by decide)⟩

theorem C7_witness :
    ValidInstance ⟨2, [[0,1],[0,1]], [[1,0],[1,0]]⟩ ∧
    ((∃ r, solveStudentsPropose ⟨2, [[0,1],[0,1]], [[1,0],[1,0]]⟩ = some r ∧
        ∀ pr ∈ r.matching, 1 ≤ r.counts pr.1 ∧
          (([[0,1],[0,1]] : List (List Nat)).getD pr.1 []).getD (r.counts pr.1 - 1) 0 = pr.2) ∧
      (∃ r, solveEstablishmentsPropose ⟨2, [[0,1],[0,1]], [[1,0],[1,0]]⟩ = some r ∧
        ∀ pr ∈ r.matching, 1 ≤ r.counts pr.2 ∧
          (([[1,0],[1,0]] : List (List Nat)).getD pr.2 []).getD (r.counts pr.2 - 1) 0 = pr.1)) :=
  ⟨by decide, C7_amended ⟨2, [[0,1],[0,1]], [[1,0],[1,0]]⟩ (by decide)⟩

theorem C8_witness :
    ((gsStep 2 [[0,1],[0,1]] [[1,0],[1,0]])^[0] (gsInit 2 (fun _ => 0))).cur 0 < 2 :=
  (C8_exhausted_branch_unreachable ⟨2, [[0,1],[0,1]], [[1,0],[1,0]]⟩ (by decide)
    (fun _ => 0) 0).1 0 [1] rfl

theorem C10_witness :
    blockingFor [[0]] [[0]] [] 0 = [] ∧ verifyStability 1 [[0]] [[0]] [] = ⟨true, []⟩ :=
  ⟨C10_unmatched_student_no_pairs.1 [[0]] [[0]] [] 0 rfl,
   C10_unmatched_student_no_pairs.2 1 [[0]] [[0]]⟩

end StableMarriage
